import Mathlib

set_option maxHeartbeats 1000000

/- Shallow embedding of `src/main.py`: the `PyCycle` class representing finite
   permutations in disjoint-cycle notation.

   Modelling conventions:
   * Python `dict[int, int]` is an association list with unique keys (`Dict`);
     lookup is first-match, insertion replaces in place or appends, preserving
     Python's insertion order.
   * Python `str` is `List Char`.
   * Python code that can raise an exception returns `Option` (`none` = raise).
   * The `while` loops of `_create_representation` take explicit fuel.  Each
     iteration of either loop removes at least one element from the working
     list, so `length + 1` fuel is always enough and `none` only ever models
     the `list.remove` `ValueError` on an invalid mapping. -/
abbrev Dict := List (Int × Int)

/-- First-match lookup: the semantics of `d[k]` / `k in d.keys()` for a Python
    dict (keys in a dict are unique, so the first match is the only match). -/
def dlookup (k : Int) : Dict → Option Int
  | [] => none
  | p :: rest => if p.1 = k then some p.2 else dlookup k rest

/-- Model of `d[k] = v` for a Python dict: replace in place when the key is present,
    otherwise append (dicts preserve insertion order). -/
def dinsert (k v : Int) : Dict → Dict
  | [] => [(k, v)]
  | p :: rest => if p.1 = k then (k, v) :: rest else p :: dinsert k v rest

/-- Model of `d.pop(k)`: remove the entry with key `k` (unique in a dict). -/
def dpop (k : Int) : Dict → Dict
  | [] => []
  | p :: rest => if p.1 = k then rest else p :: dpop k rest

/-- Model of `list(d.keys())`. -/
def dkeys (m : Dict) : List Int := m.map Prod.fst

structure PyCycle where
  _map : Dict
  _dim : Int
deriving DecidableEq

/-- The fixed-point stripping loop of `PyCycle.__init__`:
    `for key in keys: if mapping[key] == key: mapping.pop(key)`.
    It runs on the caller's dictionary in place; the result is both the
    mutated caller's dict and (after `dict(mapping)` copies it) the stored
    `_map`.  (The lookup guard can only fail to be `some _` on a dict that
    Python cannot represent; a Python dict always has its keys present.) -/
def stripFixedLoop (ks : List Int) (m : Dict) : Dict :=
  ks.foldl (fun acc k => if dlookup k acc = some k then dpop k acc else acc) m

def stripFixed (m : Dict) : Dict := stripFixedLoop (dkeys m) m

/-- Model of `PyCycle.__init__(mapping, dimension)`, the `mapping is not None` branch. -/
def PyCycle.init (m : Dict) (d : Int) : PyCycle := ⟨stripFixed m, d⟩

/-- The caller's dictionary after `PyCycle.__init__` ran on it: the strip loop
    pops fixed-point entries from the caller's dict in place. -/
def initResidual (m : Dict) : Dict := stripFixed m

/-- Model of `PyCycle.__call__`: mapped elements go to their image, unmapped elements are
    fixed points.  (The `isinstance(value, int)` check is vacuous here because
    inputs are `Int` by type.) -/
def PyCycle.call (c : PyCycle) (x : Int) : Int :=
  (dlookup x c._map).getD x

/-- Python `range(1, d + 1)` as a list of `Int` (empty when `d ≤ 0`). -/
def rangeTo (d : Int) : List Int :=
  (List.range d.toNat).map (fun i : Nat => (i : Int) + 1)

/-- Model of `PyCycle.__mul__`: `new_cycle[current] = self(cycle(current))` for `current`
    running over `1..dim` in order (`dim = max` of the two dimensions), then
    `PyCycle.__init__` strips the fixed entries. -/
def PyCycle.mul (a b : PyCycle) : PyCycle :=
  let dim := max a._dim b._dim
  PyCycle.init ((rangeTo dim).foldl (fun acc x => dinsert x (a.call (b.call x)) acc) []) dim

/-- Python `max(e :: rest)`. -/
def listMax (e : Int) (rest : List Int) : Int := rest.foldl max e

/-- The `while len(seq) >= 2` loop of `generate_single_cycle`:
    `current = seq.pop(0); mapping[current] = seq[0]`. -/
def gscLoop : List Int → Dict → Dict
  | a :: b :: rest, m => gscLoop (b :: rest) (dinsert a b m)
  | _, m => m

/-- Model of `PyCycle.generate_single_cycle`.  `none` models the `max(seq)` exception on
    an empty input list (`seq[0]` would also fail); otherwise the element list
    is extended by its own head and adjacent pairs become dict entries. -/
def PyCycle.generate_single_cycle (c : List Int) : Option PyCycle :=
  match c with
  | [] => none
  | e :: rest => some (PyCycle.init (gscLoop (c ++ [e]) []) (listMax e rest))

/-- Python `list.remove(x)`: drop the first occurrence; `none` models the
    `ValueError` when `x` is absent. -/
def removeElem (x : Int) : List Int → Option (List Int)
  | [] => none
  | y :: rest => if y = x then some rest else (removeElem x rest).map (y :: ·)

/-- The inner `while looping` loop of `_create_representation`: remove
    `current` from the working list, append it to the cycle being built,
    follow the image, and stop once the image is already in the cycle. -/
def reprInner (c : PyCycle) : Nat → Int → List Int → List Int → Option (List Int × List Int)
  | 0, _, _, _ => none
  | fuel + 1, current, toCheck, cyc =>
    match removeElem current toCheck with
    | none => none
    | some toCheck' =>
      let cyc' := cyc ++ [current]
      let nxt := c.call current
      if nxt ∈ cyc' then some (toCheck', cyc')
      else reprInner c fuel nxt toCheck' cyc'

/-- The outer `while to_check` loop of `_create_representation`: start a cycle
    at the head of the working list; cycles of length greater than one are
    recorded in order of discovery. -/
def reprOuter (c : PyCycle) : Nat → List Int → List (List Int) → Option (List (List Int))
  | _, [], acc => some acc
  | 0, _ :: _, _ => none
  | fuel + 1, t :: ts, acc =>
    match reprInner c ((t :: ts).length + 1) t (t :: ts) [] with
    | none => none
    | some (toCheck', cyc) =>
      reprOuter c fuel toCheck' (if 1 < cyc.length then acc ++ [cyc] else acc)

/-- Model of `PyCycle._create_representation`. -/
def PyCycle._create_representation (c : PyCycle) : Option (List (List Int)) :=
  reprOuter c ((rangeTo c._dim).length + 1) (rangeTo c._dim) []

/-- Python `sep.join(parts)`. -/
def joinSep (sep : List Char) (parts : List (List Char)) : List Char :=
  match parts with
  | [] => []
  | p :: rest => p ++ rest.flatMap (fun q => sep ++ q)

def natReprAux : Nat → Nat → List Char
  | 0, _ => []
  | fuel + 1, n =>
    if n < 10 then [Char.ofNat (48 + n)]
    else natReprAux fuel (n / 10) ++ [Char.ofNat (48 + n % 10)]

/-- Python `str` of a nonnegative integer (fuel `n + 1` always suffices). -/
def natRepr (n : Nat) : List Char := natReprAux (n + 1) n

/-- Python `str` of an integer. -/
def intRepr (x : Int) : List Char :=
  if x < 0 then '-' :: natRepr (-x).toNat else natRepr x.toNat

/-- Model of `PyCycle._prettify`: join each cycle with `", "`, wrap in parentheses,
    concatenate, and render the empty result as `"(1)"`. -/
def PyCycle._prettify (rep : List (List Int)) : List Char :=
  let inner := rep.map (fun cyc => joinSep (", ".data) (cyc.map intRepr))
  let result := '(' :: joinSep (")(".data) inner ++ [')']
  if result = "()".data then ("(1)".data) else result

/-- Model of `PyCycle.__repr__` / `__str__`: the canonical disjoint-cycle rendering. -/
def PyCycle.reprStr (c : PyCycle) : Option (List Char) :=
  (PyCycle._create_representation c).map PyCycle._prettify

/-- Python `range(n, 0, -1)` = `[n, n-1, ..., 1]`. -/
def rangeDown : Nat → List Nat
  | 0 => []
  | n + 1 => (n + 1) :: rangeDown n

/-- Model of `PyCycle.decompose`: each extracted cycle `[c0, ..., c_{k-1}]` contributes
    the pairs `[cycle[0], cycle[i]]` for `i = k-1, ..., 1`, rendered by
    `_prettify`.  (Indices are always in bounds for the extracted cycles, so
    `getD`/`headD` coincide with Python indexing here.) -/
def PyCycle.decompose (c : PyCycle) : Option (List Char) :=
  (PyCycle._create_representation c).map (fun cycles =>
    PyCycle._prettify (cycles.flatMap (fun cyc =>
      (rangeDown (cyc.length - 1)).map (fun i => [cyc.headD 0, cyc.getD i 0]))))

/-- Model of `PyCycle.inverse`: the dict comprehension `{v: k for k, v in items}` inserts
    the swapped pairs in item order, then `PyCycle.__init__` strips. -/
def PyCycle.inverse (c : PyCycle) : PyCycle :=
  PyCycle.init (c._map.foldl (fun acc p => dinsert p.2 p.1 acc) []) c._dim

/-- Python's whitespace class for `str.strip()`. -/
def isPySpace (c : Char) : Bool :=
  c = ' ' || c = '\t' || c = '\n' || c = '\r' || c = '\x0b' || c = '\x0c'

/-- Python `str.strip()`. -/
def pyStrip (s : List Char) : List Char :=
  ((s.dropWhile isPySpace).reverse.dropWhile isPySpace).reverse

def consHead (ch : Char) : List (List Char) → List (List Char)
  | [] => [[ch]]
  | h :: t => (ch :: h) :: t

/-- Python `str.split(sep)` for a one-character separator. -/
def splitChar (sep : Char) : List Char → List (List Char)
  | [] => [[]]
  | ch :: rest =>
    if ch = sep then [] :: splitChar sep rest else consHead ch (splitChar sep rest)

/-- Python `str.split(")(")`: scan left to right, splitting at each
    non-overlapping occurrence of the two-character separator. -/
def splitParenPair : List Char → List (List Char)
  | [] => [[]]
  | [ch] => [[ch]]
  | c1 :: c2 :: rest =>
    if c1 = ')' ∧ c2 = '(' then [] :: splitParenPair rest
    else consHead c1 (splitParenPair (c2 :: rest))

def isDigitCh (c : Char) : Bool := '0' ≤ c && c ≤ '9'

def digitVal (c : Char) : Nat := c.toNat - 48

def parseDigits (ds : List Char) : Option Nat :=
  if ds = [] then none
  else if ds.all isDigitCh then some (ds.foldl (fun a c => a * 10 + digitVal c) 0)
  else none

/-- Python `int(token)`: strip, optional sign, decimal digits.  (Python's
    underscore digit grouping and non-ASCII digits are not modelled; the
    tokens this program feeds to `int` never use them.) -/
def pyInt (s : List Char) : Option Int :=
  match pyStrip s with
  | [] => none
  | c :: ds =>
    if c = '-' then (parseDigits ds).map (fun n => -(n : Int))
    else if c = '+' then (parseDigits ds).map (fun n => (n : Int))
    else (parseDigits (c :: ds)).map (fun n => (n : Int))

def optMapList {α β : Type} (f : α → Option β) : List α → Option (List β)
  | [] => some []
  | a :: rest =>
    match f a, optMapList f rest with
    | some b, some bs => some (b :: bs)
    | _, _ => none

/-- Tokens of one `)(`-separated piece:
    `[x.strip() for x in cycle.split(",") if x.strip() != ""]`. -/
def tokensOf (part : List Char) : List (List Char) :=
  ((splitChar ',' part).map pyStrip).filter (fun t => t ≠ [])

/-- The token-extraction phase of `PyCycle.PyCycle`: `string[1:-1].split(")(")`,
    then per piece the comma split / strip / drop-empties (pieces with no
    tokens contribute no cycle), then `int` on every token (`none` models the
    `ValueError` from `int` on a non-numeric token). -/
def tokenizeCycles (s : List Char) : Option (List (List Int)) :=
  optMapList (fun p => optMapList pyInt (tokensOf p))
    ((splitParenPair ((s.drop 1).dropLast)).filter (fun p => tokensOf p ≠ []))

/-- The `while len(cycles) > 1` loop of `PyCycle.PyCycle`: pop the already-built
    last entry (`acc`) and the token list before it, build the latter with
    `generate_single_cycle`, and push `second * last`.  Fuel
    `pending.length + 1` always suffices since each iteration drops one
    pending list. -/
def parseWhile : Nat → List (List Int) → PyCycle → Option PyCycle
  | 0, pending, acc => if pending = [] then some acc else none
  | fuel + 1, pending, acc =>
    match pending.getLast? with
    | none => some acc
    | some last =>
      match PyCycle.generate_single_cycle last with
      | none => none
      | some g => parseWhile fuel pending.dropLast (g.mul acc)

/-- Model of `PyCycle.PyCycle`, the parser: tokenize; with no cycles return `PyCycle()`
    (empty mapping, dimension 0); otherwise build the rightmost cycle and fold
    the remaining cycles from the right, the left cycle always outer. -/
def CycleParse (s : List Char) : Option PyCycle :=
  match tokenizeCycles s with
  | none => none
  | some cycles =>
    match cycles.getLast? with
    | none => some (PyCycle.init [] 0)
    | some last =>
      match PyCycle.generate_single_cycle last with
      | none => none
      | some g => parseWhile (cycles.dropLast.length + 1) cycles.dropLast g

/-! ### C2: no stored fixed points -/
def noFixedEntries (c : PyCycle) : Prop := ∀ p ∈ c._map, p.2 ≠ p.1

/-! ### Claim C5: the parser's fold -/
/-- Specification-side fold of C5: `build c1 * (build c2 * (... * build ck))`,
    the left cycle always the outer function, and the identity permutation of
    dimension 0 when no cycle was found.  This is written from the spec's
    words and compared below with the parser's pop-from-the-right loop. -/
def buildChain : List (List Int) → Option PyCycle
  | [] => some (PyCycle.init [] 0)
  | [c] => PyCycle.generate_single_cycle c
  | c :: r :: rest =>
    match PyCycle.generate_single_cycle c, buildChain (r :: rest) with
    | some g, some acc => some (g.mul acc)
    | _, _ => none

/-- Specification: `chainOnto pending acc` = `build p1 * (build p2 * (... * (build pm * acc)))`:
    the state of the right-to-left fold with the already-folded part `acc`. -/
def chainOnto : List (List Int) → PyCycle → Option PyCycle
  | [], acc => some acc
  | c :: rest, acc =>
    match PyCycle.generate_single_cycle c, chainOnto rest acc with
    | some g, some r => some (g.mul r)
    | _, _ => none

/-! ### The data-model invariant and claim C7 -/
/-- The spec's data-model invariant (§3): unique keys (a Python dict), no
    fixed entries, keys and values inside `{1..dimension}`, injectivity, and
    every value also a key — together: the stored mapping extended by the
    identity on unmapped elements is a bijection of `{1..dimension}`. -/
def ValidPerm (c : PyCycle) : Prop :=
  (dkeys c._map).Nodup
  ∧ (∀ p ∈ c._map, p.2 ≠ p.1 ∧ 1 ≤ p.1 ∧ p.1 ≤ c._dim ∧ 1 ≤ p.2 ∧ p.2 ≤ c._dim)
  ∧ (∀ p ∈ c._map, ∀ q ∈ c._map, p.2 = q.2 → p.1 = q.1)
  ∧ (∀ p ∈ c._map, p.2 ∈ dkeys c._map)

instance (c : PyCycle) : Decidable (ValidPerm c) := by
  rw [ValidPerm]
  infer_instance

/-! ### Claim C4: semantics of the single-cycle builder -/
/-- Property: `P` acts on the cycle `cyc` as the rotation written by `cyc`: each element
    steps to the next, the last back to the head. -/
def CycleBehaves (P : PyCycle) (cyc : List Int) : Prop :=
  List.Chain' (fun a b => P.call a = b) cyc
  ∧ ∀ lastv headv, cyc.getLast? = some lastv → cyc.head? = some headv →
      P.call lastv = headv

/-- The adjacent pairs of a list: the dict entries `generate_single_cycle`
    inserts when run on this sequence. -/
def adjPairs : List Int → List (Int × Int)
  | a :: b :: rest => (a, b) :: adjPairs (b :: rest)
  | _ => []

/-- The structural side conditions on parsed cycle lists: each cycle has at
    least two distinct elements, all positive; cycles are pairwise disjoint. -/
def GoodCycles (cs : List (List Int)) : Prop :=
  (∀ c ∈ cs, c.Nodup ∧ 2 ≤ c.length ∧ ∀ x ∈ c, 1 ≤ x)
  ∧ List.Pairwise (fun c d => ∀ x ∈ c, x ∉ d) cs

/-- A canonical disjoint-cycle structure: at least one cycle, each cycle at
    least two distinct positive elements written starting at its minimum,
    cycles pairwise disjoint, first elements strictly increasing. -/
def CanonicalCycles (cs : List (List Int)) : Prop :=
  cs ≠ []
  ∧ (∀ c ∈ cs, c.Nodup ∧ 2 ≤ c.length ∧ (∀ x ∈ c, 1 ≤ x) ∧ (∀ x ∈ c, c.headD 0 ≤ x))
  ∧ List.Pairwise (fun c d => ∀ x ∈ c, x ∉ d) cs
  ∧ List.Pairwise (fun c d => c.headD 0 < d.headD 0) cs

instance (cs : List (List Int)) : Decidable (CanonicalCycles cs) := by
  rw [CanonicalCycles]
  infer_instance

def consHeadList (l : List Char) : List (List Char) → List (List Char)
  | [] => [l]
  | h :: t => (l ++ h) :: t

/-! ### Dictionary lemmas -/
theorem dlookup_dinsert (k a v : Int) (m : Dict) :
    dlookup k (dinsert a v m) = if a = k then some v else dlookup k m := by
  induction m with
  | nil => simp [dinsert, dlookup]
  | cons p rest ih =>
    by_cases hp : p.1 = a
    · simp only [dinsert, if_pos hp]
      by_cases h : a = k
      · simp [dlookup, h]
      · have hp1 : ¬p.1 = k := by rw [hp]; exact h
        simp [dlookup, h, hp1]
    · simp only [dinsert, if_neg hp]
      by_cases hk : p.1 = k
      · have : ¬a = k := fun h => hp (by rw [h, ← hk])
        simp [dlookup, hk, this]
      · simp [dlookup, hk, ih]

theorem dkeys_cons (p : Int × Int) (rest : Dict) : dkeys (p :: rest) = p.1 :: dkeys rest := rfl

theorem dkeys_dinsert (k v : Int) (m : Dict) :
    dkeys (dinsert k v m) = if k ∈ dkeys m then dkeys m else dkeys m ++ [k] := by
  induction m with
  | nil => simp [dinsert, dkeys]
  | cons p rest ih =>
    by_cases hp : p.1 = k
    · have hmem : k ∈ dkeys (p :: rest) := by
        rw [dkeys, List.map_cons, hp]
        exact List.mem_cons_self _ _
      simp only [dinsert, if_pos hp, if_pos hmem]
      simp [dkeys, hp]
    · have hkne : ¬k = p.1 := fun h => hp h.symm
      simp only [dinsert, if_neg hp]
      by_cases hk : k ∈ dkeys rest
      · have hmem : k ∈ dkeys (p :: rest) := by
          rw [dkeys_cons]
          exact List.mem_cons_of_mem _ hk
        rw [if_pos hmem, dkeys_cons, dkeys_cons]
        have ih2 := ih
        rw [if_pos hk] at ih2
        rw [ih2]
      · have hmem : k ∉ dkeys (p :: rest) := by
          rw [dkeys_cons]
          intro hm
          rcases List.mem_cons.mp hm with h | h
          · exact hkne h
          · exact hk h
        rw [if_neg hmem, dkeys_cons, dkeys_cons]
        have ih2 := ih
        rw [if_neg hk] at ih2
        rw [ih2, List.cons_append]

theorem nodup_dkeys_dinsert (k v : Int) (m : Dict) (h : (dkeys m).Nodup) :
    (dkeys (dinsert k v m)).Nodup := by
  rw [dkeys_dinsert]
  by_cases hk : k ∈ dkeys m
  · simpa [hk]
  · rw [if_neg hk]
    refine List.Nodup.append h (List.nodup_singleton k) ?_
    intro a ha hb
    simp at hb
    exact hk (hb ▸ ha)

theorem dlookup_eq_none_iff (k : Int) (m : Dict) :
    dlookup k m = none ↔ k ∉ dkeys m := by
  induction m with
  | nil => simp [dlookup, dkeys]
  | cons p rest ih =>
    by_cases hp : p.1 = k
    · simp [dlookup, dkeys, hp]
    · have : ¬k = p.1 := fun h => hp h.symm
      simp [dlookup, dkeys, hp, this, ih]

theorem dlookup_mem (k v : Int) (m : Dict) (h : dlookup k m = some v) : (k, v) ∈ m := by
  induction m with
  | nil => simp [dlookup] at h
  | cons p rest ih =>
    rw [dlookup] at h
    by_cases hp : p.1 = k
    · rw [if_pos hp] at h
      have hv : p.2 = v := by injection h
      have hpe : p = (k, v) := by
        obtain ⟨p1, p2⟩ := p
        simp at hp hv
        rw [hp, hv]
      rw [hpe]
      exact List.mem_cons_self _ _
    · rw [if_neg hp] at h
      exact List.mem_cons_of_mem _ (ih h)

theorem mem_dlookup (k v : Int) (m : Dict) (hnd : (dkeys m).Nodup) (h : (k, v) ∈ m) :
    dlookup k m = some v := by
  induction m with
  | nil => simp at h
  | cons p rest ih =>
    rw [dkeys, List.map_cons, List.nodup_cons] at hnd
    obtain ⟨hnotin, hnd2⟩ := hnd
    rcases List.mem_cons.mp h with heq | hmem
    · rw [← heq, dlookup]
      simp
    · have hne : ¬p.1 = k := by
        intro hk
        apply hnotin
        rw [hk]
        exact List.mem_map_of_mem Prod.fst hmem
      rw [dlookup, if_neg hne]
      exact ih hnd2 hmem

theorem dkeys_filter_sublist (p : Int × Int → Bool) (m : Dict) :
    (dkeys (m.filter p)).Sublist (dkeys m) := by
  simp only [dkeys]
  exact List.Sublist.map _ (List.filter_sublist m)

theorem dpop_eq_filter (k : Int) (m : Dict) (hnd : (dkeys m).Nodup) :
    dpop k m = m.filter (fun p => decide (p.1 ≠ k)) := by
  induction m with
  | nil => simp [dpop]
  | cons p rest ih =>
    rw [dkeys, List.map_cons, List.nodup_cons] at hnd
    obtain ⟨hnotin, hnd2⟩ := hnd
    by_cases hp : p.1 = k
    · simp only [dpop, if_pos hp, List.filter_cons]
      rw [if_neg (by simp [hp])]
      refine (List.filter_eq_self.mpr ?_).symm
      intro q hq
      simp only [decide_eq_true_eq]
      intro hqk
      exact hnotin (by rw [hp, ← hqk]; exact List.mem_map_of_mem Prod.fst hq)
    · simp only [dpop, if_neg hp, List.filter_cons]
      rw [if_pos (by simp [hp]), ih hnd2]

/-! ### The `__init__` fixed-point strip -/
theorem stripFixedLoop_cons (k : Int) (ks : List Int) (m : Dict) :
    stripFixedLoop (k :: ks) m
      = stripFixedLoop ks (if dlookup k m = some k then dpop k m else m) := by
  simp [stripFixedLoop]

theorem stripFixedLoop_eq_filter (ks : List Int) :
    ∀ (m : Dict), (dkeys m).Nodup →
    stripFixedLoop ks m = m.filter (fun p => decide (¬(p.1 ∈ ks ∧ p.2 = p.1))) := by
  induction ks with
  | nil =>
    intro m _
    simp [stripFixedLoop]
  | cons k ks ih =>
    intro m hnd
    rw [stripFixedLoop_cons]
    have hstep : (if dlookup k m = some k then dpop k m else m)
        = m.filter (fun p => decide (¬(p.1 = k ∧ p.2 = p.1))) := by
      by_cases hl : dlookup k m = some k
      · rw [if_pos hl, dpop_eq_filter k m hnd]
        apply List.filter_congr
        intro p hp
        by_cases hpk : p.1 = k
        · have hp2 : p.2 = k := by
            have hlk := mem_dlookup p.1 p.2 m hnd hp
            rw [hpk, hl] at hlk
            exact (Option.some_injective _ hlk).symm
          simp [hpk, hp2]
        · simp [hpk]
      · rw [if_neg hl]
        refine (List.filter_eq_self.mpr ?_).symm
        intro p hp
        simp only [decide_eq_true_eq]
        intro hconj
        apply hl
        have hlk := mem_dlookup p.1 p.2 m hnd hp
        rw [hconj.1] at hlk
        rw [hlk, hconj.2, hconj.1]
    rw [hstep]
    have hnd' : (dkeys (m.filter (fun p => decide (¬(p.1 = k ∧ p.2 = p.1))))).Nodup :=
      (dkeys_filter_sublist _ m).nodup hnd
    rw [ih _ hnd', List.filter_filter]
    apply List.filter_congr
    intro p hp
    by_cases h1 : p.2 = p.1
    · by_cases h2 : p.1 = k <;> by_cases h3 : p.1 ∈ ks <;> simp [h1, h2, h3]
    · simp [h1]

theorem stripFixed_eq_filter (m : Dict) (hnd : (dkeys m).Nodup) :
    stripFixed m = m.filter (fun p => decide (p.2 ≠ p.1)) := by
  rw [stripFixed, stripFixedLoop_eq_filter (dkeys m) m hnd]
  apply List.filter_congr
  intro p hp
  have : p.1 ∈ dkeys m := List.mem_map_of_mem Prod.fst hp
  simp [this]

theorem nodup_dkeys_stripFixed (m : Dict) (hnd : (dkeys m).Nodup) :
    (dkeys (stripFixed m)).Nodup := by
  rw [stripFixed_eq_filter m hnd]
  exact (dkeys_filter_sublist _ m).nodup hnd

theorem dlookup_filter_fix (m : Dict) (hnd : (dkeys m).Nodup) (k : Int) :
    dlookup k (m.filter (fun p => decide (p.2 ≠ p.1)))
      = (dlookup k m).bind (fun v => if v = k then none else some v) := by
  induction m with
  | nil => simp [dlookup]
  | cons p rest ih =>
    rw [dkeys, List.map_cons, List.nodup_cons] at hnd
    obtain ⟨hnotin, hnd2⟩ := hnd
    rw [List.filter_cons]
    by_cases hfix : p.2 = p.1
    · rw [if_neg (by simp [hfix]), ih hnd2]
      by_cases hp : p.1 = k
      · have h1 : dlookup k rest = none :=
          (dlookup_eq_none_iff _ _).mpr (by rw [← hp]; exact hnotin)
        rw [h1, dlookup, if_pos hp]
        simp [hfix, hp]
      · rw [dlookup, if_neg hp]
    · rw [if_pos (by simp [hfix])]
      by_cases hp : p.1 = k
      · rw [dlookup, if_pos hp, dlookup, if_pos hp]
        simp [show ¬p.2 = k from fun h => hfix (h.trans hp.symm)]
      · rw [dlookup, if_neg hp, dlookup, if_neg hp]
        exact ih hnd2

/-- After stripping, lookups answer like the original dict with fixed points
    erased. -/
theorem dlookup_stripFixed (m : Dict) (hnd : (dkeys m).Nodup) (k : Int) :
    dlookup k (stripFixed m)
      = (dlookup k m).bind (fun v => if v = k then none else some v) := by
  rw [stripFixed_eq_filter m hnd]
  exact dlookup_filter_fix m hnd k

/-! ### Nodup keys for the internally built dicts -/
theorem nodup_dkeys_foldl_fn {α : Type} (f : α → Int) (g : α → Int) (l : List α) :
    ∀ (init : Dict), (dkeys init).Nodup →
    (dkeys (l.foldl (fun acc x => dinsert (f x) (g x) acc) init)).Nodup := by
  induction l with
  | nil => intro init h; simpa
  | cons a rest ih =>
    intro init h
    simpa using ih _ (nodup_dkeys_dinsert (f a) (g a) init h)

theorem nodup_dkeys_gscLoop (l : List Int) :
    ∀ (m : Dict), (dkeys m).Nodup → (dkeys (gscLoop l m)).Nodup := by
  induction l with
  | nil => intro m h; simpa [gscLoop]
  | cons a rest ih =>
    intro m h
    cases rest with
    | nil => simpa [gscLoop]
    | cons b rest2 =>
      rw [gscLoop]
      exact ih _ (nodup_dkeys_dinsert a b m h)

/-! ### Lookup in the `__mul__` working dict -/
theorem dlookup_foldl_dinsert_fn (g : Int → Int) (l : List Int) (k : Int) :
    ∀ (init : Dict),
    dlookup k (l.foldl (fun acc x => dinsert x (g x) acc) init)
      = if k ∈ l then some (g k) else dlookup k init := by
  induction l with
  | nil => intro init; simp
  | cons a rest ih =>
    intro init
    rw [List.foldl_cons, ih]
    by_cases hk : k ∈ rest
    · simp [hk]
    · by_cases hak : a = k
      · simp [hk, hak, dlookup_dinsert]
      · have hka : ¬k = a := fun h => hak h.symm
        simp [hk, hak, hka, dlookup_dinsert]

theorem mem_rangeTo (d x : Int) : x ∈ rangeTo d ↔ 1 ≤ x ∧ x ≤ d := by
  simp only [rangeTo, List.mem_map, List.mem_range]
  constructor
  · rintro ⟨i, hi, rfl⟩
    omega
  · rintro ⟨h1, h2⟩
    exact ⟨(x - 1).toNat, by omega, by omega⟩

theorem nodup_rangeTo (d : Int) : (rangeTo d).Nodup := by
  rw [rangeTo]
  exact (List.nodup_range _).map (fun i j h => by omega)

/-! ### C1: composition applies as a(b(x)) on the common universe -/
theorem mul_map_eq (a b : PyCycle) :
    (a.mul b)._map
      = stripFixed ((rangeTo (max a._dim b._dim)).foldl
          (fun acc x => dinsert x (a.call (b.call x)) acc) []) := rfl

theorem mul_dim (a b : PyCycle) : (a.mul b)._dim = max a._dim b._dim := rfl

theorem mul_call (a b : PyCycle) (x : Int)
    (h1 : 1 ≤ x) (h2 : x ≤ max a._dim b._dim) :
    (a.mul b).call x = a.call (b.call x) := by
  have hmem : x ∈ rangeTo (max a._dim b._dim) := (mem_rangeTo _ _).mpr ⟨h1, h2⟩
  have hnd : (dkeys ((rangeTo (max a._dim b._dim)).foldl
      (fun acc x => dinsert x (a.call (b.call x)) acc) [])).Nodup :=
    nodup_dkeys_foldl_fn (fun x => x) (fun x => a.call (b.call x)) _ [] (by simp [dkeys])
  rw [PyCycle.call, mul_map_eq, dlookup_stripFixed _ hnd x,
    dlookup_foldl_dinsert_fn, if_pos hmem]
  by_cases hfix : a.call (b.call x) = x
  · simp [hfix]
  · simp [hfix]

theorem noFixedEntries_init (m : Dict) (d : Int) (hnd : (dkeys m).Nodup) :
    noFixedEntries (PyCycle.init m d) := by
  intro p hp
  rw [PyCycle.init] at hp
  simp only at hp
  rw [stripFixed_eq_filter m hnd] at hp
  have := List.of_mem_filter hp
  simpa using this

theorem noFixedEntries_gsc (l : List Int) (c : PyCycle)
    (h : PyCycle.generate_single_cycle l = some c) : noFixedEntries c := by
  cases l with
  | nil => simp [PyCycle.generate_single_cycle] at h
  | cons e rest =>
    simp only [PyCycle.generate_single_cycle, Option.some.injEq] at h
    rw [← h]
    exact noFixedEntries_init _ _ (nodup_dkeys_gscLoop _ [] (by simp [dkeys]))

theorem noFixedEntries_mul (a b : PyCycle) : noFixedEntries (a.mul b) :=
  noFixedEntries_init _ _ (nodup_dkeys_foldl_fn (fun x => x) _ _ [] (by simp [dkeys]))

theorem noFixedEntries_inverse (c : PyCycle) : noFixedEntries c.inverse :=
  noFixedEntries_init _ _ (nodup_dkeys_foldl_fn Prod.snd Prod.fst _ [] (by simp [dkeys]))

theorem noFixedEntries_parseWhile (fuel : Nat) :
    ∀ (pending : List (List Int)) (acc : PyCycle), noFixedEntries acc →
    ∀ c, parseWhile fuel pending acc = some c → noFixedEntries c := by
  induction fuel with
  | zero =>
    intro pending acc hacc c h
    rw [parseWhile] at h
    by_cases hp : pending = [] <;> simp [hp] at h
    exact h ▸ hacc
  | succ fuel ih =>
    intro pending acc hacc c h
    rw [parseWhile] at h
    cases hg : pending.getLast? with
    | none =>
      simp only [hg, Option.some.injEq] at h
      exact h ▸ hacc
    | some last =>
      simp only [hg] at h
      cases hb : PyCycle.generate_single_cycle last with
      | none => simp only [hb] at h; exact Option.noConfusion h
      | some g =>
        simp only [hb] at h
        exact ih _ _ (noFixedEntries_mul g acc) c h

theorem noFixedEntries_parse (s : List Char) (c : PyCycle)
    (h : CycleParse s = some c) : noFixedEntries c := by
  rw [CycleParse] at h
  cases ht : tokenizeCycles s with
  | none => simp only [ht] at h; exact Option.noConfusion h
  | some cycles =>
    simp only [ht] at h
    cases hg : cycles.getLast? with
    | none =>
      simp only [hg, Option.some.injEq] at h
      rw [← h]
      exact noFixedEntries_init [] 0 (by simp [dkeys])
    | some last =>
      simp only [hg] at h
      cases hb : PyCycle.generate_single_cycle last with
      | none => simp only [hb] at h; exact Option.noConfusion h
      | some g =>
        simp only [hb] at h
        exact noFixedEntries_parseWhile _ _ _ (noFixedEntries_gsc last g hb) c h

/-! ### Claim C1 -/
/-- C1: for every pair of permutations `a`, `b` and every integer `x` in
    `1..max(dim a, dim b)`, `(a * b)(x) = a(b(x))`, and the dimension of
    `a * b` is that maximum. -/
theorem compose_applies_pointwise (a b : PyCycle) (x : Int)
    (h1 : 1 ≤ x) (h2 : x ≤ max a._dim b._dim) :
    (a.mul b).call x = a.call (b.call x) ∧ (a.mul b)._dim = max a._dim b._dim :=
  ⟨mul_call a b x h1 h2, mul_dim a b⟩

theorem compose_applies_pointwise_witness :
    (PyCycle.mul ⟨[(1, 2), (2, 1)], 2⟩ ⟨[(2, 3), (3, 2)], 3⟩).call 2
      = (⟨[(1, 2), (2, 1)], 2⟩ : PyCycle).call ((⟨[(2, 3), (3, 2)], 3⟩ : PyCycle).call 2)
    ∧ (PyCycle.mul ⟨[(1, 2), (2, 1)], 2⟩ ⟨[(2, 3), (3, 2)], 3⟩)._dim
      = max (⟨[(1, 2), (2, 1)], 2⟩ : PyCycle)._dim (⟨[(2, 3), (3, 2)], 3⟩ : PyCycle)._dim :=
  compose_applies_pointwise ⟨[(1, 2), (2, 1)], 2⟩ ⟨[(2, 3), (3, 2)], 3⟩ 2
    (by decide) (by decide)

/-! ### Claim C2 -/
/-- C2: every permutation produced by a public operation (construction from a
    raw dict, the single-cycle builder, composition, inversion, parsing)
    stores no entry whose image equals its key.  The raw-dict clause carries
    the `Nodup` hypothesis expressing that the input is a Python dict (keys
    unique). -/
theorem stored_mapping_never_fixed :
    (∀ (m : Dict) (d : Int), (dkeys m).Nodup → noFixedEntries (PyCycle.init m d))
    ∧ (∀ (l : List Int) (c : PyCycle),
        PyCycle.generate_single_cycle l = some c → noFixedEntries c)
    ∧ (∀ (a b : PyCycle), noFixedEntries (a.mul b))
    ∧ (∀ (c : PyCycle), noFixedEntries c.inverse)
    ∧ (∀ (s : List Char) (c : PyCycle), CycleParse s = some c → noFixedEntries c) :=
  ⟨noFixedEntries_init, noFixedEntries_gsc, noFixedEntries_mul,
    noFixedEntries_inverse, noFixedEntries_parse⟩

theorem stored_mapping_never_fixed_witness :
    noFixedEntries (PyCycle.init [(1, 1), (2, 3)] 3)
    ∧ noFixedEntries (⟨[(2, 3), (3, 1), (1, 2)], 3⟩ : PyCycle)
    ∧ noFixedEntries (PyCycle.mul ⟨[(1, 2), (2, 1)], 2⟩ ⟨[], 0⟩)
    ∧ noFixedEntries (PyCycle.inverse ⟨[(1, 2), (2, 1)], 2⟩)
    ∧ noFixedEntries (⟨[(1, 2), (2, 1)], 2⟩ : PyCycle) :=
  ⟨stored_mapping_never_fixed.1 [(1, 1), (2, 3)] 3 (by decide),
    stored_mapping_never_fixed.2.1 [2, 3, 1] ⟨[(2, 3), (3, 1), (1, 2)], 3⟩ (by decide),
    stored_mapping_never_fixed.2.2.1 ⟨[(1, 2), (2, 1)], 2⟩ ⟨[], 0⟩,
    stored_mapping_never_fixed.2.2.2.1 ⟨[(1, 2), (2, 1)], 2⟩,
    stored_mapping_never_fixed.2.2.2.2 ("(1, 2)".data) ⟨[(1, 2), (2, 1)], 2⟩ (by decide)⟩

/-! ### Claim C3 -/
/-- C3 counterexample: `generate_single_cycle([2,3,1])` renders as
    `"(1, 2, 3)"`, not `"(2, 3, 1)"` — the printed cycle is re-sorted to
    start at the smallest element, refuting the claim's rendering clause. -/
theorem fromSingleCycle_231_rendering_resorted :
    (PyCycle.generate_single_cycle [2, 3, 1]).bind PyCycle.reprStr
      = some ("(1, 2, 3)".data)
    ∧ "(1, 2, 3)".data ≠ "(2, 3, 1)".data := by
  constructor
  · decide
  · decide

/-- C3 amended: `generate_single_cycle([2,3,1])` stores exactly the mapping
    `{2:3, 3:1, 1:2}` with dimension 3, but its `toString` is `"(1, 2, 3)"`:
    cycle extraction always starts a cycle at the smallest remaining element,
    so the rendering does not keep the first-listed element first. -/
theorem fromSingleCycle_231 :
    PyCycle.generate_single_cycle [2, 3, 1] = some ⟨[(2, 3), (3, 1), (1, 2)], 3⟩
    ∧ (PyCycle.generate_single_cycle [2, 3, 1]).bind PyCycle.reprStr
      = some ("(1, 2, 3)".data) := by
  constructor
  · decide
  · decide

/-! ### Claim C6 -/
theorem optMapList_eq_none {α β : Type} (f : α → Option β) (l : List α) (a : α)
    (ha : a ∈ l) (hfa : f a = none) : optMapList f l = none := by
  induction l with
  | nil => simp at ha
  | cons b rest ih =>
    rcases List.mem_cons.mp ha with h | h
    · rw [optMapList, ← h, hfa]
    · rw [optMapList, ih h]
      cases f b <;> rfl

theorem tokenizeCycles_eq_none (s part tok : List Char)
    (hpart : part ∈ splitParenPair ((s.drop 1).dropLast))
    (htok : tok ∈ tokensOf part) (hbad : pyInt tok = none) :
    tokenizeCycles s = none := by
  rw [tokenizeCycles]
  apply optMapList_eq_none _ _ part
  · refine List.mem_filter.mpr ⟨hpart, ?_⟩
    simpa using List.ne_nil_of_mem htok
  · exact optMapList_eq_none _ _ tok htok hbad

/-- C6 counterexample: the unbalanced-parenthesis input `"(1, 2"` does not
    fail; it parses to a permutation (the identity of dimension 1), refuting
    the unbalanced-parentheses clause of the claim. -/
theorem unbalanced_parse_succeeds :
    CycleParse ("(1, 2".data) = some ⟨[], 1⟩ := by decide

/-- C6 amended: a non-numeric token always makes the parser raise (modelled
    as `none`), but unbalanced parentheses need not: the parser only strips
    the first and last character and splits on `")("`, so inputs such as
    `"(1, 2"` parse without error. -/
theorem parse_raises_on_nonnumeric_token (s part tok : List Char)
    (hpart : part ∈ splitParenPair ((s.drop 1).dropLast))
    (htok : tok ∈ tokensOf part) (hbad : pyInt tok = none) :
    CycleParse s = none := by
  rw [CycleParse, tokenizeCycles_eq_none s part tok hpart htok hbad]

theorem parse_raises_on_nonnumeric_token_witness :
    CycleParse ("(a)".data) = none :=
  parse_raises_on_nonnumeric_token ("(a)".data) "a".data ("a".data)
    (by decide) (by decide) (by decide)

/-! ### Claim C9 -/
/-- C9 counterexample: constructing a permutation from the raw mapping
    `{1: 1}` does not leave the caller's dictionary unchanged — the
    constructor pops the fixed-point entry from it in place. -/
theorem construction_mutates_raw_mapping :
    initResidual [(1, 1)] ≠ [(1, 1)] := by decide

/-- C9 amended: `__init__` strips every fixed-point entry from the caller's
    dictionary in place, so the caller's dict afterwards equals its
    fixed-point-free part (and is unchanged exactly when it had no
    fixed-point entry); the stored mapping and dimension are that stripped
    dict and the given dimension.  `compose` and `invert` only read their
    operands (they build fresh dicts), so operands are untouched. -/
theorem construction_strips_raw_mapping_in_place (m : Dict) (d : Int)
    (hnd : (dkeys m).Nodup) :
    initResidual m = m.filter (fun p => decide (p.2 ≠ p.1))
    ∧ (PyCycle.init m d)._map = initResidual m
    ∧ (PyCycle.init m d)._dim = d
    ∧ ((∀ p ∈ m, p.2 ≠ p.1) → initResidual m = m) := by
  refine ⟨stripFixed_eq_filter m hnd, rfl, rfl, fun h => ?_⟩
  have he : initResidual m = m.filter (fun p => decide (p.2 ≠ p.1)) :=
    stripFixed_eq_filter m hnd
  rw [he]
  exact List.filter_eq_self.mpr (fun p hp => by simpa using h p hp)

theorem construction_strips_raw_mapping_in_place_witness :
    initResidual [(1, 1), (2, 3)] = [(2, 3)]
    ∧ (PyCycle.init [(1, 1), (2, 3)] 3)._map = [(2, 3)] := by
  have h := construction_strips_raw_mapping_in_place [(1, 1), (2, 3)] 3 (by decide)
  exact ⟨h.1.trans (by decide), h.2.1.trans (h.1.trans (by decide))⟩

/-! ### Claim C8: decompose -/
theorem mem_rangeDown (n i : Nat) : i ∈ rangeDown n ↔ 1 ≤ i ∧ i ≤ n := by
  induction n with
  | zero =>
    simp [rangeDown]
    omega
  | succ n ih =>
    simp [rangeDown, ih]
    omega

theorem rangeDown_map_getD (h : Int) (t : List Int) :
    (rangeDown t.length).map (fun i => (h :: t).getD i 0) = t.reverse := by
  induction t using List.reverseRecOn with
  | nil => simp [rangeDown]
  | append_singleton t' x ih =>
    have hlen : (t' ++ [x]).length = t'.length + 1 := by simp
    rw [hlen, rangeDown, List.map_cons]
    have hsplit : (h :: (t' ++ [x])) = (h :: t') ++ [x] :=
      (List.cons_append h t' [x]).symm
    have hx : (h :: (t' ++ [x])).getD (t'.length + 1) 0 = x := by
      rw [hsplit, List.getD_append_right (h :: t') [x] 0 (t'.length + 1) (by simp)]
      simp
    have htail : (rangeDown t'.length).map (fun i => (h :: (t' ++ [x])).getD i 0)
        = (rangeDown t'.length).map (fun i => (h :: t').getD i 0) := by
      apply List.map_congr_left
      intro i hi
      have hb := (mem_rangeDown _ _).mp hi
      rw [hsplit, List.getD_append (h :: t') [x] 0 i (by simp; omega)]
    rw [hx, htail, ih]
    simp

theorem list_flatMap_congr {α β : Type} (l : List α) (f g : α → List β)
    (h : ∀ a ∈ l, f a = g a) : l.flatMap f = l.flatMap g := by
  induction l with
  | nil => rfl
  | cons a rest ih =>
    simp only [List.flatMap_cons]
    rw [h a (List.mem_cons_self _ _), ih (fun b hb => h b (List.mem_cons_of_mem _ hb))]

theorem transpositions_eq (cyc : List Int) :
    (rangeDown (cyc.length - 1)).map (fun i => [cyc.headD 0, cyc.getD i 0])
      = (cyc.tail.reverse).map (fun x => [cyc.headD 0, x]) := by
  cases cyc with
  | nil => simp [rangeDown]
  | cons h t =>
    have key := rangeDown_map_getD h t
    simp only [List.length_cons, Nat.add_sub_cancel, List.tail_cons, List.headD_cons]
    rw [← key, List.map_map]
    rfl

/-- C8: `decompose` renders, for each extracted cycle `[c0, ..., c_{k-1}]`,
    exactly the transpositions `(c0, c_{k-1}), ..., (c0, c1)` in that order
    (the first element paired with each later element in reverse), through
    the same `_prettify` routine; and concretely
    `decompose(parse("(1, 2, 3)")) = "(1, 3)(1, 2)"`. -/
theorem decompose_transpositions (c : PyCycle) (rep : List (List Int))
    (h : PyCycle._create_representation c = some rep) :
    PyCycle.decompose c
      = some (PyCycle._prettify (rep.flatMap (fun cyc =>
          (cyc.tail.reverse).map (fun x => [cyc.headD 0, x]))))
    ∧ (CycleParse ("(1, 2, 3)".data)).bind PyCycle.decompose
      = some ("(1, 3)(1, 2)".data) := by
  constructor
  · rw [PyCycle.decompose, h]
    simp only [Option.map_some']
    exact congrArg _ (congrArg _ (list_flatMap_congr rep _ _
      (fun cyc _ => transpositions_eq cyc)))
  · decide

theorem decompose_transpositions_witness :
    PyCycle.decompose ⟨[(1, 2), (2, 3), (3, 1)], 3⟩
      = some (PyCycle._prettify ([[1, 2, 3]].flatMap (fun cyc =>
          (cyc.tail.reverse).map (fun x => [cyc.headD 0, x]))))
    ∧ (CycleParse ("(1, 2, 3)".data)).bind PyCycle.decompose
      = some ("(1, 3)(1, 2)".data) :=
  decompose_transpositions ⟨[(1, 2), (2, 3), (3, 1)], 3⟩ [[1, 2, 3]] (by decide)

theorem chainOnto_concat (p : List (List Int)) (c : List Int) (acc : PyCycle) :
    chainOnto (p ++ [c]) acc
      = match PyCycle.generate_single_cycle c with
        | none => none
        | some g => chainOnto p (g.mul acc) := by
  induction p with
  | nil =>
    simp only [List.nil_append, chainOnto]
    cases PyCycle.generate_single_cycle c <;> rfl
  | cons q p' ih =>
    cases hg : PyCycle.generate_single_cycle c with
    | none =>
      simp only [hg] at ih
      rw [List.cons_append, chainOnto, ih]
      simp only [hg]
      cases PyCycle.generate_single_cycle q <;> rfl
    | some g =>
      simp only [hg] at ih
      rw [List.cons_append, chainOnto, ih]
      simp only [hg]
      rfl

theorem parseWhile_eq_chainOnto (pending : List (List Int)) (acc : PyCycle) :
    parseWhile (pending.length + 1) pending acc = chainOnto pending acc := by
  induction pending using List.reverseRecOn generalizing acc with
  | nil => rfl
  | append_singleton p c ih =>
    rw [parseWhile]
    simp only [List.length_append, List.length_singleton,
      List.getLast?_concat, List.dropLast_concat, chainOnto_concat]
    cases hg : PyCycle.generate_single_cycle c with
    | none => simp only [hg]
    | some g =>
      simp only [hg]
      exact ih (g.mul acc)

theorem buildChain_concat (p : List (List Int)) (c : List Int) :
    buildChain (p ++ [c])
      = match PyCycle.generate_single_cycle c with
        | none => none
        | some g => chainOnto p g := by
  induction p with
  | nil =>
    simp only [List.nil_append, buildChain]
    cases PyCycle.generate_single_cycle c <;> rfl
  | cons q p' ih =>
    have hne : p' ++ [c] ≠ [] := by simp
    cases hstruct : p' ++ [c] with
    | nil => exact absurd hstruct hne
    | cons r rest' =>
      cases hg : PyCycle.generate_single_cycle c with
      | none =>
        simp only [hg] at ih
        rw [List.cons_append, hstruct, buildChain, ← hstruct, ih]
        simp only [hg]
        cases PyCycle.generate_single_cycle q <;> rfl
      | some g =>
        simp only [hg] at ih
        rw [List.cons_append, hstruct, buildChain, ← hstruct, ih]
        simp only [hg]
        rfl

/-- The parse result equals the right fold of the extracted cycles. -/
theorem parse_eq_buildChain (s : List Char) (cs : List (List Int))
    (h : tokenizeCycles s = some cs) :
    CycleParse s = buildChain cs := by
  rw [CycleParse, h]
  induction cs using List.reverseRecOn with
  | nil => rfl
  | append_singleton p c _ =>
    simp only [List.getLast?_concat, List.dropLast_concat]
    rw [buildChain_concat]
    cases hg : PyCycle.generate_single_cycle c with
    | none => rfl
    | some g =>
      exact parseWhile_eq_chainOnto p g

/-- C5: the parser folds the textually extracted non-empty cycles from the
    right, the left cycle always the outer factor of the composition, and
    returns the identity permutation of dimension 0 when no cycle is found.
    `buildChain` is the specification-side fold. -/
theorem parse_folds_right_to_left (s : List Char) (cs : List (List Int))
    (h : tokenizeCycles s = some cs) :
    CycleParse s = buildChain cs :=
  parse_eq_buildChain s cs h

theorem parse_folds_right_to_left_witness :
    CycleParse ("(1, 2)(3, 4, 5)".data) = buildChain [[1, 2], [3, 4, 5]] :=
  parse_folds_right_to_left _ _ (by decide)

theorem values_nodup (c : PyCycle) (hv : ValidPerm c) :
    (c._map.map Prod.snd).Nodup := by
  obtain ⟨hkeys, _, hinj, _⟩ := hv
  rw [List.Nodup, List.pairwise_map]
  rw [dkeys] at hkeys
  rw [List.Nodup, List.pairwise_map] at hkeys
  refine hkeys.imp_of_mem ?_
  intro p q hp hq h1 h2
  exact h1 (hinj p hp q hq h2)

theorem mem_values_of_mem_keys (c : PyCycle) (hv : ValidPerm c) :
    ∀ x ∈ dkeys c._map, x ∈ c._map.map Prod.snd := by
  have hvk : ∀ x ∈ c._map.map Prod.snd, x ∈ dkeys c._map := by
    intro x hx
    rcases List.mem_map.mp hx with ⟨p, hp, he⟩
    exact he ▸ hv.2.2.2 p hp
  have hlen : (c._map.map Prod.snd).length = (dkeys c._map).length := by simp [dkeys]
  intro x hx
  have h1 : (c._map.map Prod.snd).toFinset ⊆ (dkeys c._map).toFinset := fun y hy =>
    List.mem_toFinset.mpr (hvk y (List.mem_toFinset.mp hy))
  have hcard1 : (c._map.map Prod.snd).toFinset.card = (c._map.map Prod.snd).length :=
    List.toFinset_card_of_nodup (values_nodup c hv)
  have hcard2 : (dkeys c._map).toFinset.card = (dkeys c._map).length :=
    List.toFinset_card_of_nodup hv.1
  have heq : (c._map.map Prod.snd).toFinset = (dkeys c._map).toFinset :=
    Finset.eq_of_subset_of_card_le h1 (by rw [hcard1, hcard2, hlen])
  exact List.mem_toFinset.mp (heq ▸ List.mem_toFinset.mpr hx)

theorem dinsert_not_mem_append (k v : Int) (m : Dict) (h : k ∉ dkeys m) :
    dinsert k v m = m ++ [(k, v)] := by
  induction m with
  | nil => rfl
  | cons p rest ih =>
    rw [dkeys_cons] at h
    have h1 : ¬k = p.1 := fun he => h (he ▸ List.mem_cons_self _ _)
    have hp : ¬p.1 = k := fun he => h1 he.symm
    have h2 : k ∉ dkeys rest := fun hm => h (List.mem_cons_of_mem _ hm)
    simp only [dinsert, if_neg hp]
    rw [ih h2, List.cons_append]

theorem foldl_dinsert_pairs_append (ps : List (Int × Int)) :
    ∀ (init : Dict), (dkeys ps).Nodup → (∀ p ∈ ps, p.1 ∉ dkeys init) →
    ps.foldl (fun acc q => dinsert q.1 q.2 acc) init = init ++ ps := by
  induction ps with
  | nil => intro init _ _; simp
  | cons p rest ih =>
    intro init hnd hfresh
    rw [dkeys_cons, List.nodup_cons] at hnd
    rw [List.foldl_cons,
      dinsert_not_mem_append _ _ _ (hfresh p (List.mem_cons_self _ _))]
    rw [ih (init ++ [p]) hnd.2 ?_]
    · simp
    · intro q hq
      have hq1 : q.1 ∉ dkeys init := hfresh q (List.mem_cons_of_mem _ hq)
      have hq2 : ¬q.1 = p.1 := by
        intro he
        exact hnd.1 (he ▸ List.mem_map_of_mem Prod.fst hq)
      intro hmem
      rw [dkeys, List.map_append] at hmem
      rcases List.mem_append.mp hmem with h | h
      · exact hq1 (by simpa [dkeys] using h)
      · simp at h
        exact hq2 h

theorem dkeys_map_swap (m : Dict) :
    dkeys (m.map (fun p => (p.2, p.1))) = m.map Prod.snd := by
  rw [dkeys, List.map_map]
  rfl

theorem inverse_map_swap (c : PyCycle) (hv : ValidPerm c) :
    c.inverse._map = c._map.map (fun p => (p.2, p.1)) ∧ c.inverse._dim = c._dim := by
  constructor
  · show stripFixed (c._map.foldl (fun acc p => dinsert p.2 p.1 acc) []) = _
    have hfold : c._map.foldl (fun acc p => dinsert p.2 p.1 acc) []
        = (c._map.map (fun p => (p.2, p.1))).foldl (fun acc q => dinsert q.1 q.2 acc) [] := by
      rw [List.foldl_map]
    have hnd : (dkeys (c._map.map (fun p => (p.2, p.1)))).Nodup := by
      rw [dkeys_map_swap]
      exact values_nodup c hv
    rw [hfold, foldl_dinsert_pairs_append _ [] hnd (by simp [dkeys]), List.nil_append]
    rw [stripFixed_eq_filter _ hnd]
    apply List.filter_eq_self.mpr
    intro q hq
    rcases List.mem_map.mp hq with ⟨p, hp, he⟩
    have : p.1 ≠ p.2 := fun h => (hv.2.1 p hp).1 h.symm
    rw [← he]
    simpa using this
  · rfl

theorem call_inverse_call (a : PyCycle) (hv : ValidPerm a) (x : Int) :
    a.call (a.inverse.call x) = x := by
  have hswap := (inverse_map_swap a hv).1
  cases hl : dlookup x a.inverse._map with
  | none =>
    have hxv : x ∉ dkeys a.inverse._map := (dlookup_eq_none_iff _ _).mp hl
    rw [hswap, dkeys_map_swap] at hxv
    have hxk : x ∉ dkeys a._map := fun hk => hxv (mem_values_of_mem_keys a hv x hk)
    have hnone : dlookup x a._map = none := (dlookup_eq_none_iff _ _).mpr hxk
    show (dlookup (PyCycle.call a.inverse x) a._map).getD _ = x
    rw [PyCycle.call, hl]
    simp [hnone]
  | some k =>
    have hmem := dlookup_mem _ _ _ hl
    rw [hswap] at hmem
    rcases List.mem_map.mp hmem with ⟨p, hp, hpe⟩
    have h2 : p.2 = x := congrArg Prod.fst hpe
    have h1 : p.1 = k := congrArg Prod.snd hpe
    have hlk : dlookup k a._map = some x :=
      mem_dlookup k x a._map hv.1 (by rw [← h1, ← h2]; exact hp)
    show (dlookup (PyCycle.call a.inverse x) a._map).getD _ = x
    rw [PyCycle.call, hl]
    simp [hlk]

theorem mem_dinsert (q : Int × Int) (k v : Int) (m : Dict) (h : q ∈ dinsert k v m) :
    q = (k, v) ∨ q ∈ m := by
  induction m with
  | nil => simpa [dinsert] using h
  | cons p rest ih =>
    by_cases hp : p.1 = k
    · simp only [dinsert, if_pos hp] at h
      rcases List.mem_cons.mp h with he | hm
      · exact Or.inl he
      · exact Or.inr (List.mem_cons_of_mem _ hm)
    · simp only [dinsert, if_neg hp] at h
      rcases List.mem_cons.mp h with he | hm
      · exact Or.inr (he ▸ List.mem_cons_self _ _)
      · rcases ih hm with h1 | h1
        · exact Or.inl h1
        · exact Or.inr (List.mem_cons_of_mem _ h1)

theorem mem_foldl_dinsert_fn (g : Int → Int) (l : List Int) :
    ∀ (init : Dict) (p : Int × Int),
    p ∈ l.foldl (fun acc x => dinsert x (g x) acc) init →
    p ∈ init ∨ ∃ x ∈ l, p = (x, g x) := by
  induction l with
  | nil => intro init p hp; exact Or.inl hp
  | cons a rest ih =>
    intro init p hp
    rw [List.foldl_cons] at hp
    rcases ih _ p hp with h | h
    · rcases mem_dinsert p a (g a) init h with he | hm
      · exact Or.inr ⟨a, List.mem_cons_self _ _, he⟩
      · exact Or.inl hm
    · rcases h with ⟨x, hx, he⟩
      exact Or.inr ⟨x, List.mem_cons_of_mem _ hx, he⟩

theorem mul_inverse_map_nil (a : PyCycle) (hv : ValidPerm a) :
    (a.mul a.inverse)._map = [] := by
  have hfix : ∀ x, a.call (a.inverse.call x) = x := call_inverse_call a hv
  have hnd : (dkeys ((rangeTo (max a._dim a.inverse._dim)).foldl
      (fun acc x => dinsert x (a.call (a.inverse.call x)) acc) [])).Nodup :=
    nodup_dkeys_foldl_fn (fun x => x) _ _ [] (by simp [dkeys])
  rw [mul_map_eq, stripFixed_eq_filter _ hnd]
  rw [List.filter_eq_nil_iff]
  intro p hp
  rcases mem_foldl_dinsert_fn _ _ [] p hp with h | ⟨x, _, he⟩
  · simp at h
  · rw [he]
    simp [hfix x]

theorem reprOuter_id (c : PyCycle) (hm : c._map = []) :
    ∀ (fuel : Nat) (tc : List Int) (acc : List (List Int)), tc.length ≤ fuel →
    reprOuter c fuel tc acc = some acc := by
  intro fuel
  induction fuel with
  | zero =>
    intro tc acc h
    cases tc with
    | nil => rfl
    | cons t ts => simp at h
  | succ fuel ih =>
    intro tc acc h
    cases tc with
    | nil => rfl
    | cons t ts =>
      rw [reprOuter]
      have hin : reprInner c ((t :: ts).length + 1) t (t :: ts) [] = some (ts, [t]) := by
        rw [reprInner]
        have hrm : removeElem t (t :: ts) = some ts := by simp [removeElem]
        rw [hrm]
        have hcall : c.call t = t := by simp [PyCycle.call, hm, dlookup]
        simp [hcall]
      rw [hin]
      simp only [List.length_singleton]
      rw [if_neg (by omega)]
      exact ih ts acc (by simpa using Nat.le_of_succ_le_succ h)

theorem empty_map_repr (c : PyCycle) (hm : c._map = []) :
    PyCycle.reprStr c = some ("(1)".data) := by
  rw [PyCycle.reprStr, PyCycle._create_representation,
    reprOuter_id c hm ((rangeTo c._dim).length + 1) (rangeTo c._dim) [] (by omega)]
  rfl

/-- C7: for every valid Permutation `a` (the spec's data-model invariant),
    `a * invert(a)` has an empty stored mapping and renders as the canonical
    identity form `"(1)"`. -/
theorem compose_with_inverse_is_identity (a : PyCycle) (hv : ValidPerm a) :
    (a.mul a.inverse)._map = [] ∧ PyCycle.reprStr (a.mul a.inverse) = some ("(1)".data) :=
  ⟨mul_inverse_map_nil a hv, empty_map_repr _ (mul_inverse_map_nil a hv)⟩

theorem compose_with_inverse_is_identity_witness :
    (PyCycle.mul ⟨[(1, 4), (4, 3), (3, 2), (2, 1)], 4⟩
        (PyCycle.inverse ⟨[(1, 4), (4, 3), (3, 2), (2, 1)], 4⟩))._map = []
    ∧ PyCycle.reprStr (PyCycle.mul ⟨[(1, 4), (4, 3), (3, 2), (2, 1)], 4⟩
        (PyCycle.inverse ⟨[(1, 4), (4, 3), (3, 2), (2, 1)], 4⟩)) = some ("(1)".data) :=
  compose_with_inverse_is_identity ⟨[(1, 4), (4, 3), (3, 2), (2, 1)], 4⟩ (by decide)

/-! ### The inner extraction loop walks one cycle -/
theorem removeElem_nodup (x : Int) (l : List Int) (hx : x ∈ l) (hnd : l.Nodup) :
    removeElem x l = some (l.filter (fun y => decide (y ≠ x))) := by
  induction l with
  | nil => simp at hx
  | cons y rest ih =>
    rw [List.nodup_cons] at hnd
    by_cases hyx : y = x
    · simp only [removeElem, if_pos hyx, List.filter_cons]
      rw [if_neg (by simp [hyx])]
      have hxr : x ∉ rest := hyx ▸ hnd.1
      have hfe : rest.filter (fun y => decide (y ≠ x)) = rest := by
        refine List.filter_eq_self.mpr ?_
        intro z hz
        simp only [decide_eq_true_eq]
        intro hzx
        exact hxr (hzx ▸ hz)
      rw [hfe]
    · have hxr : x ∈ rest := by
        rcases List.mem_cons.mp hx with h | h
        · exact absurd h.symm hyx
        · exact h
      simp only [removeElem, if_neg hyx, List.filter_cons]
      rw [if_pos (by simpa using hyx), ih hxr hnd.2]
      rfl

theorem chain_adjacent {R : Int → Int → Prop} (cyc pre rest : List Int) (s s2 : Int)
    (hc : List.Chain' R cyc) (he : cyc = pre ++ s :: s2 :: rest) : R s s2 := by
  subst he
  have h2 := (List.chain'_append.mp hc).2.1
  exact (List.chain'_cons.mp h2).1

/-- The inner loop of `_create_representation`, started in the middle of a
    cycle `cyc = pre ++ s :: srest` whose elements step to each other under
    `call` and whose last element steps back to its head, consumes exactly
    the rest of that cycle: it removes `s :: srest` from the working list and
    returns the full cycle. -/
theorem reprInner_walk (pc : PyCycle) (cyc : List Int) (hnd : cyc.Nodup)
    (hchain : List.Chain' (fun a b => pc.call a = b) cyc)
    (hwrap : ∀ lastv headv, cyc.getLast? = some lastv → cyc.head? = some headv →
      pc.call lastv = headv) :
    ∀ (srest : List Int) (s : Int) (pre tc : List Int) (fuel : Nat),
    cyc = pre ++ s :: srest →
    (∀ x ∈ s :: srest, x ∈ tc) → tc.Nodup → srest.length + 1 ≤ fuel →
    reprInner pc fuel s tc pre
      = some (tc.filter (fun x => decide (¬x ∈ s :: srest)), cyc) := by
  intro srest
  induction srest with
  | nil =>
    intro s pre tc fuel hcyc hsub hndtc hfuel
    cases fuel with
    | zero => omega
    | succ fuel =>
      rw [reprInner, removeElem_nodup s tc (hsub s (List.mem_cons_self _ _)) hndtc]
      have hlast2 : cyc.getLast? = some s := by
        rw [hcyc]
        exact List.getLast?_concat _
      obtain ⟨headv, hheadv⟩ : ∃ h, cyc.head? = some h := by
        rw [hcyc]
        cases pre <;> simp
      have hcall : pc.call s = headv := hwrap s headv hlast2 hheadv
      have hmemhead : pc.call s ∈ pre ++ [s] := by
        rw [hcall, ← hcyc]
        exact List.mem_of_mem_head? hheadv
      simp only [hmemhead, if_pos, if_true]
      rw [← hcyc]
      have hfe : (tc.filter (fun y => decide (y ≠ s)))
          = tc.filter (fun x => decide (¬x ∈ s :: ([] : List Int))) := by
        apply List.filter_congr
        intro x _
        simp
      rw [hfe]
  | cons s2 rest ih =>
    intro s pre tc fuel hcyc hsub hndtc hfuel
    cases fuel with
    | zero => omega
    | succ fuel =>
      rw [reprInner, removeElem_nodup s tc (hsub s (List.mem_cons_self _ _)) hndtc]
      have hs2 : pc.call s = s2 := chain_adjacent cyc pre rest s s2 hchain hcyc
      have hndc := hcyc ▸ hnd
      have hparts := List.nodup_append.mp hndc
      have hnotin : pc.call s ∉ pre ++ [s] := by
        rw [hs2]
        intro hmem
        rcases List.mem_append.mp hmem with h | h
        · exact hparts.2.2 h (by simp)
        · simp at h
          have hsuf := hparts.2.1
          rw [List.nodup_cons] at hsuf
          exact hsuf.1 (h ▸ List.mem_cons_self _ _)
      simp only [hnotin, if_neg, if_false]
      have hsufnd := hparts.2.1
      rw [List.nodup_cons] at hsufnd
      have happly := ih s2 (pre ++ [s]) (tc.filter (fun y => decide (y ≠ s))) fuel
        (by rw [hcyc]; simp)
        (by
          intro x hx
          refine List.mem_filter.mpr ⟨hsub x (List.mem_cons_of_mem _ hx), ?_⟩
          simp only [decide_eq_true_eq]
          intro hxs
          exact hsufnd.1 (hxs ▸ hx))
        (hndtc.filter _)
        (by simpa using Nat.le_of_succ_le_succ hfuel)
      rw [hs2, happly, List.filter_filter]
      have hfe : ∀ x ∈ tc,
          (decide (¬x ∈ s2 :: rest) && decide (x ≠ s))
            = decide (¬x ∈ s :: s2 :: rest) := by
        intro x _
        by_cases h1 : x = s <;> by_cases h2 : x ∈ s2 :: rest <;> simp [h1, h2]
      rw [List.filter_congr hfe]

/-! ### Claim C10: extraction is total on valid permutations -/
theorem nodup_subset_length (l1 l2 : List Int) (hnd : l1.Nodup)
    (hsub : ∀ x ∈ l1, x ∈ l2) : l1.length ≤ l2.length := by
  calc l1.length = l1.toFinset.card := (List.toFinset_card_of_nodup hnd).symm
    _ ≤ l2.toFinset.card := Finset.card_le_card
        (fun x hx => List.mem_toFinset.mpr (hsub x (List.mem_toFinset.mp hx)))
    _ ≤ l2.length := List.toFinset_card_le l2

theorem iterate_mem (f : Int → Int) (tc : List Int)
    (hclosed : ∀ x ∈ tc, f x ∈ tc) (t : Int) (ht : t ∈ tc) :
    ∀ k, f^[k] t ∈ tc := by
  intro k
  induction k with
  | zero => simpa
  | succ k ihk =>
    rw [Function.iterate_succ_apply']
    exact hclosed _ ihk

theorem iterate_cancel (f : Int → Int) (tc : List Int)
    (hclosed : ∀ x ∈ tc, f x ∈ tc)
    (hinj : ∀ x ∈ tc, ∀ y ∈ tc, f x = f y → x = y) :
    ∀ (i : Nat) (x y : Int), x ∈ tc → y ∈ tc → f^[i] x = f^[i] y → x = y := by
  intro i
  induction i with
  | zero => intro x y _ _ h; simpa using h
  | succ i ihi =>
    intro x y hx hy h
    rw [Function.iterate_succ_apply, Function.iterate_succ_apply] at h
    exact hinj x hx y hy (ihi (f x) (f y) (hclosed x hx) (hclosed y hy) h)

theorem exists_period (f : Int → Int) (tc : List Int)
    (hclosed : ∀ x ∈ tc, f x ∈ tc)
    (hinj : ∀ x ∈ tc, ∀ y ∈ tc, f x = f y → x = y)
    (t : Int) (ht : t ∈ tc) :
    ∃ m : Nat, (0 < m ∧ f^[m] t = t) ∧ m ≤ tc.length := by
  have hmem : ∀ k, f^[k] t ∈ tc := iterate_mem f tc hclosed t ht
  have hnotnd : ¬((List.range (tc.length + 1)).map (fun k => f^[k] t)).Nodup := by
    intro hcon
    have hle := nodup_subset_length _ tc hcon (by
      intro x hx
      rcases List.mem_map.mp hx with ⟨k, _, he⟩
      exact he ▸ hmem k)
    simp at hle
  rw [List.nodup_map_iff_inj_on (List.nodup_range _)] at hnotnd
  push_neg at hnotnd
  obtain ⟨i, hi, j, hj, hij, hne⟩ := hnotnd
  rw [List.mem_range] at hi hj
  rcases Nat.lt_or_ge i j with hlt | hge
  · refine ⟨j - i, ⟨by omega, ?_⟩, by omega⟩
    have h1 : f^[i] (f^[j - i] t) = f^[i] t := by
      rw [← Function.iterate_add_apply]
      rw [show i + (j - i) = j from by omega]
      exact hij.symm
    exact iterate_cancel f tc hclosed hinj i _ t (hmem _) ht h1
  · have hlt2 : j < i := by omega
    refine ⟨i - j, ⟨by omega, ?_⟩, by omega⟩
    have h1 : f^[j] (f^[i - j] t) = f^[j] t := by
      rw [← Function.iterate_add_apply]
      rw [show j + (i - j) = i from by omega]
      exact hij
    exact iterate_cancel f tc hclosed hinj j _ t (hmem _) ht h1

theorem orbit_exists (f : Int → Int) (tc : List Int) (_hnd : tc.Nodup)
    (hclosed : ∀ x ∈ tc, f x ∈ tc)
    (hinj : ∀ x ∈ tc, ∀ y ∈ tc, f x = f y → x = y)
    (t : Int) (ht : t ∈ tc) :
    ∃ m : Nat, 0 < m ∧ m ≤ tc.length ∧ f^[m] t = t
      ∧ ((List.range m).map (fun k => f^[k] t)).Nodup := by
  obtain ⟨m0, hm0, hm0le⟩ := exists_period f tc hclosed hinj t ht
  have hP : ∃ m, 0 < m ∧ f^[m] t = t := ⟨m0, hm0⟩
  refine ⟨Nat.find hP, (Nat.find_spec hP).1, ?_, (Nat.find_spec hP).2, ?_⟩
  · exact le_trans (Nat.find_min' hP hm0) hm0le
  · rw [List.nodup_map_iff_inj_on (List.nodup_range _)]
    intro i hi j hj hije
    rw [List.mem_range] at hi hj
    by_contra hne
    have hmem : ∀ k, f^[k] t ∈ tc := iterate_mem f tc hclosed t ht
    rcases Nat.lt_or_ge i j with hlt | hge
    · have h1 : f^[i] (f^[j - i] t) = f^[i] t := by
        rw [← Function.iterate_add_apply, show i + (j - i) = j from by omega]
        exact hije.symm
      have h2 := iterate_cancel f tc hclosed hinj i _ t (hmem _) ht h1
      exact absurd h2 (Nat.find_min hP (m := j - i) (by omega) |> fun hc h =>
        hc ⟨by omega, h⟩)
    · have hlt2 : j < i := by omega
      have h1 : f^[j] (f^[i - j] t) = f^[j] t := by
        rw [← Function.iterate_add_apply, show j + (i - j) = i from by omega]
        exact hije
      have h2 := iterate_cancel f tc hclosed hinj j _ t (hmem _) ht h1
      exact absurd h2 (Nat.find_min hP (m := i - j) (by omega) |> fun hc h =>
        hc ⟨by omega, h⟩)

theorem filter_length_lt {α : Type} (p : α → Bool) (l : List α) (x : α)
    (hx : x ∈ l) (hpx : p x = false) : (l.filter p).length < l.length := by
  induction l with
  | nil => simp at hx
  | cons y rest ih =>
    rcases List.mem_cons.mp hx with h | h
    · rw [List.filter_cons, ← h, hpx]
      simp only [List.length_cons]
      exact Nat.lt_succ_of_le (List.length_filter_le _ _)
    · rw [List.filter_cons]
      cases hpy : p y
      · simp only [List.length_cons]
        exact Nat.lt_succ_of_lt (ih h)
      · simp only [List.length_cons]
        exact Nat.succ_lt_succ (ih h)

theorem reprOuter_total (pc : PyCycle) :
    ∀ (fuel : Nat) (tc : List Int) (acc : List (List Int)),
    tc.length ≤ fuel → tc.Nodup →
    (∀ x ∈ tc, pc.call x ∈ tc) →
    (∀ x ∈ tc, ∀ y ∈ tc, pc.call x = pc.call y → x = y) →
    (reprOuter pc fuel tc acc).isSome := by
  intro fuel
  induction fuel with
  | zero =>
    intro tc acc hlen _ _ _
    cases tc with
    | nil => simp [reprOuter]
    | cons t ts => simp at hlen
  | succ fuel ih =>
    intro tc acc hlen hnd hclosed hinj
    cases tc with
    | nil => simp [reprOuter]
    | cons t ts =>
      obtain ⟨m, hm0, hmle, hmt, hndorb⟩ :=
        orbit_exists pc.call (t :: ts) hnd hclosed hinj t (List.mem_cons_self _ _)
      obtain ⟨mm, rfl⟩ : ∃ mm, m = mm + 1 := ⟨m - 1, by omega⟩
      have horb_cons : (List.range (mm + 1)).map (fun k => pc.call^[k] t)
          = t :: (List.range mm).map (fun k => pc.call^[k + 1] t) := by
        rw [List.range_succ_eq_map, List.map_cons, List.map_map]
        congr 1
      have hchain : List.Chain' (fun a b => pc.call a = b)
          ((List.range (mm + 1)).map (fun k => pc.call^[k] t)) := by
        rw [List.chain'_map, List.chain'_range_succ]
        intro k _
        rw [Function.iterate_succ_apply']
      have hwrap : ∀ lastv headv,
          ((List.range (mm + 1)).map (fun k => pc.call^[k] t)).getLast? = some lastv →
          ((List.range (mm + 1)).map (fun k => pc.call^[k] t)).head? = some headv →
          pc.call lastv = headv := by
        intro lastv headv hlastv hheadv
        have h1 : ((List.range (mm + 1)).map (fun k => pc.call^[k] t)).getLast?
            = some (pc.call^[mm] t) := by
          rw [List.range_succ, List.map_append, List.map_singleton, List.getLast?_concat]
        have h2 : ((List.range (mm + 1)).map (fun k => pc.call^[k] t)).head?
            = some t := by
          rw [horb_cons]
          rfl
        rw [h1] at hlastv
        rw [h2] at hheadv
        have e1 : lastv = pc.call^[mm] t := (Option.some_injective _ hlastv).symm
        have e2 : headv = t := (Option.some_injective _ hheadv).symm
        have hstep := Function.iterate_succ_apply' pc.call mm t
        rw [e1, e2, ← hstep]
        exact hmt
      have hsuborb : ∀ x ∈ (List.range (mm + 1)).map (fun k => pc.call^[k] t),
          x ∈ t :: ts := by
        intro x hx
        rcases List.mem_map.mp hx with ⟨k, _, he⟩
        exact he ▸ iterate_mem pc.call (t :: ts) hclosed t (List.mem_cons_self _ _) k
      have hwalk := reprInner_walk pc _ hndorb hchain hwrap
        ((List.range mm).map (fun k => pc.call^[k + 1] t)) t [] (t :: ts)
        ((t :: ts).length + 1)
        (by rw [List.nil_append]; exact horb_cons)
        (by
          intro x hx
          apply hsuborb
          rw [horb_cons]
          exact hx)
        hnd
        (by
          have : ((List.range mm).map (fun k => pc.call^[k + 1] t)).length = mm := by simp
          rw [this]
          simp only [List.length_cons] at hmle ⊢
          omega)
      rw [reprOuter, hwalk]
      simp only
      apply ih
      · have hlt : ((t :: ts).filter
            (fun x => decide (¬x ∈ t :: (List.range mm).map (fun k => pc.call^[k + 1] t)))).length
            < (t :: ts).length :=
          filter_length_lt _ _ t (List.mem_cons_self _ _) (by simp)
        simp only [List.length_cons] at hlt hlen
        omega
      · exact hnd.filter _
      · intro x hx
        have hxtc : x ∈ t :: ts := List.mem_of_mem_filter hx
        have hpx := List.of_mem_filter hx
        simp only [decide_eq_true_eq] at hpx
        refine List.mem_filter.mpr ⟨hclosed x hxtc, ?_⟩
        simp only [decide_eq_true_eq]
        intro hcx
        apply hpx
        rw [← horb_cons] at hcx ⊢
        rcases List.mem_map.mp hcx with ⟨k, hk, he⟩
        rw [List.mem_range] at hk
        have : ∃ w ∈ (List.range (mm + 1)).map (fun j => pc.call^[j] t),
            pc.call w = pc.call x := by
          rcases Nat.eq_zero_or_pos k with hk0 | hkpos
          · have hstep := Function.iterate_succ_apply' pc.call mm t
            refine ⟨pc.call^[mm] t,
              List.mem_map.mpr ⟨mm, by simp [List.mem_range], rfl⟩, ?_⟩
            rw [← hstep, hmt]
            rw [hk0] at he
            simpa using he
          · have hstep := Function.iterate_succ_apply' pc.call (k - 1) t
            refine ⟨pc.call^[k - 1] t,
              List.mem_map.mpr ⟨k - 1, by rw [List.mem_range]; omega, rfl⟩, ?_⟩
            rw [← hstep, show (k - 1).succ = k from by omega]
            exact he
        obtain ⟨w, hw, hwx⟩ := this
        have hweq : w = x := hinj w (hsuborb w hw) x hxtc hwx
        exact hweq ▸ hw
      · intro x hx y hy
        exact hinj x (List.mem_of_mem_filter hx) y (List.mem_of_mem_filter hy)

theorem valid_call_injective (c : PyCycle) (hv : ValidPerm c) :
    ∀ x y : Int, c.call x = c.call y → x = y := by
  intro x y h
  rw [PyCycle.call, PyCycle.call] at h
  cases hx : dlookup x c._map with
  | none =>
    cases hy : dlookup y c._map with
    | none => simpa [hx, hy] using h
    | some vy =>
      rw [hx, hy] at h
      simp at h
      exfalso
      have hmem := dlookup_mem _ _ _ hy
      have hkv : vy ∈ dkeys c._map := hv.2.2.2 (y, vy) hmem
      rw [← h] at hkv
      exact (dlookup_eq_none_iff x _).mp hx hkv
  | some vx =>
    cases hy : dlookup y c._map with
    | none =>
      rw [hx, hy] at h
      simp at h
      exfalso
      have hmem := dlookup_mem _ _ _ hx
      have hkv : vx ∈ dkeys c._map := hv.2.2.2 (x, vx) hmem
      rw [h] at hkv
      exact (dlookup_eq_none_iff y _).mp hy hkv
    | some vy =>
      rw [hx, hy] at h
      simp at h
      have hmx := dlookup_mem _ _ _ hx
      have hmy := dlookup_mem _ _ _ hy
      exact hv.2.2.1 (x, vx) hmx (y, vy) hmy h

theorem valid_call_mem_range (c : PyCycle) (hv : ValidPerm c) :
    ∀ x ∈ rangeTo c._dim, c.call x ∈ rangeTo c._dim := by
  intro x hx
  rw [PyCycle.call]
  cases hl : dlookup x c._map with
  | none => simpa using hx
  | some v =>
    have hm := dlookup_mem _ _ _ hl
    have hb := hv.2.1 (x, v) hm
    simp only [Option.getD_some]
    exact (mem_rangeTo _ _).mpr ⟨hb.2.2.2.1, hb.2.2.2.2⟩

/-- C10: on every Permutation satisfying the data-model invariant (the stored
    mapping together with the identity is a fixed-point-free bijection inside
    `{1..dimension}`), the cycle-extraction loops finish without error, so
    `_create_representation`, `toString` and `decompose` all produce results. -/
theorem representation_total (c : PyCycle) (hv : ValidPerm c) :
    (PyCycle._create_representation c).isSome
    ∧ (PyCycle.reprStr c).isSome ∧ (PyCycle.decompose c).isSome := by
  have h1 : (PyCycle._create_representation c).isSome := by
    rw [PyCycle._create_representation]
    exact reprOuter_total c _ _ [] (by omega) (nodup_rangeTo _)
      (valid_call_mem_range c hv)
      (fun x _ y _ h => valid_call_injective c hv x y h)
  refine ⟨h1, ?_, ?_⟩
  · rw [PyCycle.reprStr, Option.isSome_map']
    exact h1
  · rw [PyCycle.decompose, Option.isSome_map']
    exact h1

theorem representation_total_witness :
    (PyCycle._create_representation ⟨[(1, 2), (2, 1)], 2⟩).isSome
    ∧ (PyCycle.reprStr ⟨[(1, 2), (2, 1)], 2⟩).isSome
    ∧ (PyCycle.decompose ⟨[(1, 2), (2, 1)], 2⟩).isSome :=
  representation_total ⟨[(1, 2), (2, 1)], 2⟩ (by decide)

theorem gscLoop_eq_foldl (l : List Int) :
    ∀ m, gscLoop l m = (adjPairs l).foldl (fun acc q => dinsert q.1 q.2 acc) m := by
  induction l with
  | nil => intro m; rfl
  | cons a rest ih =>
    intro m
    cases rest with
    | nil => rfl
    | cons b r2 =>
      rw [gscLoop]
      show gscLoop (b :: r2) (dinsert a b m)
        = ((a, b) :: adjPairs (b :: r2)).foldl (fun acc q => dinsert q.1 q.2 acc) m
      rw [List.foldl_cons]
      exact ih (dinsert a b m)

theorem adjPairs_concat_keys : ∀ (l : List Int) (z : Int),
    (adjPairs (l ++ [z])).map Prod.fst = l := by
  intro l
  induction l with
  | nil => intro z; rfl
  | cons a rest ih =>
    intro z
    cases rest with
    | nil => rfl
    | cons b r2 =>
      show ((a, b) :: adjPairs ((b :: r2) ++ [z])).map Prod.fst = a :: b :: r2
      rw [List.map_cons, ih z]

theorem adjPairs_sub_append (l1 l2 : List Int) :
    ∀ q ∈ adjPairs l1, q ∈ adjPairs (l1 ++ l2) := by
  induction l1 with
  | nil => simp [adjPairs]
  | cons a rest ih =>
    cases rest with
    | nil => simp [adjPairs]
    | cons b r2 =>
      intro q hq
      show q ∈ (a, b) :: adjPairs ((b :: r2) ++ l2)
      rcases List.mem_cons.mp hq with he | hm
      · exact he ▸ List.mem_cons_self _ _
      · exact List.mem_cons_of_mem _ (ih q hm)

theorem adjPairs_last_mem (l : List Int) (z : Int) :
    ∀ h : l ≠ [], (l.getLast h, z) ∈ adjPairs (l ++ [z]) := by
  induction l with
  | nil => intro h; exact absurd rfl h
  | cons a rest ih =>
    intro h
    cases rest with
    | nil =>
      show (a, z) ∈ [(a, z)]
      exact List.mem_singleton.mpr rfl
    | cons b r2 =>
      have hbr : (b :: r2) ≠ [] := by simp
      rw [List.getLast_cons hbr]
      show ((b :: r2).getLast hbr, z) ∈ (a, b) :: adjPairs ((b :: r2) ++ [z])
      exact List.mem_cons_of_mem _ (ih hbr)

theorem adjPairs_nofix (l : List Int) (z : Int) :
    l.Nodup → (∀ h : l ≠ [], z ≠ l.getLast h) →
    ∀ q ∈ adjPairs (l ++ [z]), q.2 ≠ q.1 := by
  induction l with
  | nil => simp [adjPairs]
  | cons a rest ih =>
    intro hnd hz
    cases rest with
    | nil =>
      intro q hq
      have he : q = (a, z) := by simpa [adjPairs] using hq
      rw [he]
      have := hz (by simp)
      simpa [List.getLast] using this
    | cons b r2 =>
      intro q hq
      have hq2 : q ∈ (a, b) :: adjPairs ((b :: r2) ++ [z]) := hq
      rcases List.mem_cons.mp hq2 with he | hm
      · rw [he]
        intro hba
        simp only at hba
        rw [List.nodup_cons] at hnd
        exact hnd.1 (by rw [← hba]; exact List.mem_cons_self _ _)
      · have hbr : (b :: r2) ≠ [] := by simp
        refine ih ?_ ?_ q hm
        · exact (List.nodup_cons.mp hnd).2
        · intro h
          have := hz (by simp)
          rw [List.getLast_cons hbr] at this
          exact this

theorem chain_of_adj (g : PyCycle) (l : List Int)
    (h : ∀ q ∈ adjPairs l, g.call q.1 = q.2) :
    List.Chain' (fun a b => g.call a = b) l := by
  induction l with
  | nil => simp
  | cons a rest ih =>
    cases rest with
    | nil => simp
    | cons b r2 =>
      rw [List.chain'_cons]
      constructor
      · exact h (a, b) (List.mem_cons_self _ _)
      · exact ih (fun q hq => h q (List.mem_cons_of_mem _ hq))

theorem listMax_ge (e : Int) (rest : List Int) :
    e ≤ listMax e rest ∧ ∀ x ∈ rest, x ≤ listMax e rest := by
  induction rest generalizing e with
  | nil => simp [listMax]
  | cons b r ih =>
    have hstep : listMax e (b :: r) = listMax (max e b) r := by
      rw [listMax, listMax, List.foldl_cons]
    have hr := ih (max e b)
    refine ⟨?_, ?_⟩
    · rw [hstep]
      exact le_trans (le_max_left e b) hr.1
    · intro x hx
      rw [hstep]
      rcases List.mem_cons.mp hx with he | hm
      · rw [he]
        exact le_trans (le_max_right e b) hr.1
      · exact hr.2 x hm

theorem gsc_spec (e : Int) (rest : List Int)
    (hnd : (e :: rest).Nodup) (hlen : 2 ≤ (e :: rest).length) :
    ∃ g, PyCycle.generate_single_cycle (e :: rest) = some g
      ∧ g._map = adjPairs ((e :: rest) ++ [e])
      ∧ g._dim = listMax e rest
      ∧ (∀ x ∈ e :: rest, x ≤ g._dim)
      ∧ CycleBehaves g (e :: rest)
      ∧ (∀ x, x ∉ e :: rest → g.call x = x) := by
  have hkeys : (adjPairs ((e :: rest) ++ [e])).map Prod.fst = e :: rest :=
    adjPairs_concat_keys (e :: rest) e
  have hkeysnd : ((adjPairs ((e :: rest) ++ [e])).map Prod.fst).Nodup := by
    rw [hkeys]; exact hnd
  have hlast_ne : ∀ h : (e :: rest) ≠ [], e ≠ (e :: rest).getLast h := by
    intro h
    cases rest with
    | nil => simp at hlen
    | cons b r2 =>
      have hbr : (b :: r2) ≠ [] := by simp
      rw [List.getLast_cons hbr]
      intro he
      rw [List.nodup_cons] at hnd
      exact hnd.1 (he ▸ List.getLast_mem hbr)
  have hnofix := adjPairs_nofix (e :: rest) e hnd hlast_ne
  have hloop : gscLoop ((e :: rest) ++ [e]) [] = adjPairs ((e :: rest) ++ [e]) := by
    rw [gscLoop_eq_foldl,
      foldl_dinsert_pairs_append _ [] (by rw [dkeys]; exact hkeysnd) (by simp [dkeys]),
      List.nil_append]
  have hmap : (PyCycle.init (gscLoop ((e :: rest) ++ [e]) []) (listMax e rest))._map
      = adjPairs ((e :: rest) ++ [e]) := by
    show stripFixed (gscLoop ((e :: rest) ++ [e]) []) = _
    rw [hloop, stripFixed_eq_filter _ (by rw [dkeys]; exact hkeysnd)]
    exact List.filter_eq_self.mpr (fun q hq => by simpa using hnofix q hq)
  refine ⟨_, rfl, hmap, rfl, ?_, ?_, ?_⟩
  · intro x hx
    show x ≤ listMax e rest
    rcases List.mem_cons.mp hx with he | hm
    · exact he ▸ (listMax_ge e rest).1
    · exact (listMax_ge e rest).2 x hm
  · have hadj : ∀ q ∈ adjPairs ((e :: rest) ++ [e]),
        (PyCycle.init (gscLoop ((e :: rest) ++ [e]) []) (listMax e rest)).call q.1 = q.2 := by
      intro q hq
      rw [PyCycle.call, hmap,
        mem_dlookup q.1 q.2 _ (by rw [dkeys]; exact hkeysnd) hq]
      rfl
    constructor
    · exact chain_of_adj _ _ (fun q hq =>
        hadj q (adjPairs_sub_append (e :: rest) [e] q hq))
    · intro lastv headv hlastv hheadv
      have hh : headv = e := by
        simp at hheadv
        exact hheadv.symm
      have hl2 : ∃ h : (e :: rest) ≠ [], lastv = (e :: rest).getLast h := by
        refine ⟨by simp, ?_⟩
        rw [List.getLast?_eq_getLast _ (by simp)] at hlastv
        exact (Option.some_injective _ hlastv).symm
      obtain ⟨hne2, hle⟩ := hl2
      rw [hh, hle]
      exact hadj ((e :: rest).getLast hne2, e) (adjPairs_last_mem (e :: rest) e hne2)
  · intro x hx
    rw [PyCycle.call, hmap]
    have : dlookup x (adjPairs ((e :: rest) ++ [e])) = none := by
      rw [dlookup_eq_none_iff]
      rw [dkeys, hkeys]
      exact hx
    rw [this]
    rfl

theorem mul_call_outside (a b : PyCycle) (x : Int)
    (hx : x ∉ rangeTo (max a._dim b._dim)) : (a.mul b).call x = x := by
  have hnd : (dkeys ((rangeTo (max a._dim b._dim)).foldl
      (fun acc y => dinsert y (a.call (b.call y)) acc) [])).Nodup :=
    nodup_dkeys_foldl_fn (fun y => y) (fun y => a.call (b.call y)) _ [] (by simp [dkeys])
  rw [PyCycle.call, mul_map_eq, dlookup_stripFixed _ hnd x,
    dlookup_foldl_dinsert_fn, if_neg hx]
  rfl

theorem adjPairs_mem_fst (l : List Int) : ∀ q ∈ adjPairs l, q.1 ∈ l := by
  induction l with
  | nil => simp [adjPairs]
  | cons a rest ih =>
    cases rest with
    | nil => simp [adjPairs]
    | cons b r2 =>
      intro q hq
      rcases List.mem_cons.mp hq with he | hm
      · rw [he]
        exact List.mem_cons_self _ _
      · exact List.mem_cons_of_mem _ (ih q hm)

theorem adj_of_chain (g : PyCycle) (l : List Int)
    (h : List.Chain' (fun a b => g.call a = b) l) :
    ∀ q ∈ adjPairs l, g.call q.1 = q.2 := by
  induction l with
  | nil => simp [adjPairs]
  | cons a rest ih =>
    cases rest with
    | nil => simp [adjPairs]
    | cons b r2 =>
      rw [List.chain'_cons] at h
      intro q hq
      rcases List.mem_cons.mp hq with he | hm
      · rw [he]
        exact h.1
      · exact ih h.2 q hm

theorem cycleBehaves_congr (P Q : PyCycle) (c : List Int)
    (hAg : ∀ a ∈ c, P.call a = Q.call a) (h : CycleBehaves Q c) : CycleBehaves P c := by
  constructor
  · apply chain_of_adj
    intro q hq
    rw [hAg q.1 (adjPairs_mem_fst c q hq)]
    exact adj_of_chain Q c h.1 q hq
  · intro lastv headv h1 h2
    have hmem : lastv ∈ c := by
      obtain ⟨hne, he⟩ := List.mem_getLast?_eq_getLast (Option.mem_def.mpr h1)
      rw [he]
      exact List.getLast_mem hne
    rw [hAg lastv hmem]
    exact h.2 lastv headv h1 h2

theorem chain_maps_into_aux (Q : PyCycle) (stop : Int) :
    ∀ (l : List Int), List.Chain' (fun a b => Q.call a = b) l →
    (∀ h : l ≠ [], Q.call (l.getLast h) = stop) →
    ∀ a ∈ l, Q.call a ∈ l ∨ Q.call a = stop := by
  intro l
  induction l with
  | nil => simp
  | cons a0 rest ih =>
    intro hchain hlast a ha
    cases rest with
    | nil =>
      have : a = a0 := by simpa using ha
      right
      rw [this]
      simpa [List.getLast] using hlast (by simp)
    | cons b r2 =>
      rcases List.mem_cons.mp ha with he | hm
      · left
        rw [he, (List.chain'_cons.mp hchain).1]
        exact List.mem_cons_of_mem _ (List.mem_cons_self _ _)
      · have hbr : (b :: r2) ≠ [] := by simp
        rcases ih (List.chain'_cons.mp hchain).2
          (by
            intro h
            have := hlast (by simp)
            rw [List.getLast_cons hbr] at this
            exact this) a hm with hin | hst
        · exact Or.inl (List.mem_cons_of_mem _ hin)
        · exact Or.inr hst

theorem cycleBehaves_maps_into (Q : PyCycle) (cyc : List Int)
    (h : CycleBehaves Q cyc) : ∀ a ∈ cyc, Q.call a ∈ cyc := by
  intro a ha
  cases cyc with
  | nil => simp at ha
  | cons c0 crest =>
    have hstop : ∀ hne : (c0 :: crest) ≠ [], Q.call ((c0 :: crest).getLast hne) = c0 := by
      intro hne
      exact h.2 _ c0 (List.getLast?_eq_getLast _ hne) rfl
    rcases chain_maps_into_aux Q c0 (c0 :: crest) h.1 hstop a ha with hin | hst
    · exact hin
    · rw [hst]
      exact List.mem_cons_self _ _

theorem buildChain_spec : ∀ (cs : List (List Int)), GoodCycles cs → cs ≠ [] →
    ∃ P, buildChain cs = some P
      ∧ 1 ≤ P._dim
      ∧ (∀ c ∈ cs, ∀ x ∈ c, 1 ≤ x ∧ x ≤ P._dim)
      ∧ (∀ c ∈ cs, CycleBehaves P c)
      ∧ (∀ x, (∀ c ∈ cs, x ∉ c) → P.call x = x) := by
  intro cs
  induction cs with
  | nil => intro _ h; exact absurd rfl h
  | cons c rest ih =>
    intro hgood _
    obtain ⟨hall, hdisj⟩ := hgood
    obtain ⟨hcnd, hclen, hcpos⟩ := hall c (List.mem_cons_self _ _)
    obtain ⟨e, crest, rfl⟩ : ∃ e crest, c = e :: crest := by
      cases c with
      | nil => simp at hclen
      | cons e crest => exact ⟨e, crest, rfl⟩
    obtain ⟨g, hg, _hgmap, _hgdim, hgbound, hgbeh, hgoff⟩ := gsc_spec e crest hcnd hclen
    have h1e : 1 ≤ e := hcpos e (List.mem_cons_self _ _)
    have hgdim1 : 1 ≤ g._dim := le_trans h1e (hgbound e (List.mem_cons_self _ _))
    cases rest with
    | nil =>
      refine ⟨g, ?_, hgdim1, ?_, ?_, ?_⟩
      · show PyCycle.generate_single_cycle (e :: crest) = some g
        exact hg
      · intro c' hc' x hx
        have he' : c' = e :: crest := by simpa using hc'
        rw [he'] at hx
        exact ⟨hcpos x hx, hgbound x hx⟩
      · intro c' hc'
        have he' : c' = e :: crest := by simpa using hc'
        rw [he']
        exact hgbeh
      · intro x hx
        exact hgoff x (hx _ (List.mem_cons_self _ _))
    | cons c2 rest2 =>
      have hgood2 : GoodCycles (c2 :: rest2) :=
        ⟨fun d hd => hall d (List.mem_cons_of_mem _ hd),
          (List.pairwise_cons.mp hdisj).2⟩
      obtain ⟨Q, hQ, hQdim, hQbound, hQbeh, hQoff⟩ := ih hgood2 (by simp)
      have hheaddisj : ∀ d ∈ c2 :: rest2, ∀ x ∈ e :: crest, x ∉ d :=
        (List.pairwise_cons.mp hdisj).1
      have hbc : buildChain ((e :: crest) :: c2 :: rest2) = some (g.mul Q) := by
        rw [buildChain, hg, hQ]
      have hdimP : (g.mul Q)._dim = max g._dim Q._dim := rfl
      have hmemrange : ∀ y : Int, 1 ≤ y → y ≤ g._dim ∨ y ≤ Q._dim →
          y ∈ rangeTo (max g._dim Q._dim) := by
        intro y h1 h2
        rcases h2 with h | h <;>
          exact (mem_rangeTo _ _).mpr ⟨h1, by omega⟩
      have hagree_head : ∀ a ∈ e :: crest, (g.mul Q).call a = g.call a := by
        intro a ha
        have hmr : a ∈ rangeTo (max g._dim Q._dim) :=
          hmemrange a (hcpos a ha) (Or.inl (hgbound a ha))
        rw [mul_call g Q a ((mem_rangeTo _ _).mp hmr).1 ((mem_rangeTo _ _).mp hmr).2]
        rw [hQoff a (fun d hd => hheaddisj d hd a ha)]
      have hagree_rest : ∀ cyc ∈ c2 :: rest2, ∀ a ∈ cyc,
          (g.mul Q).call a = Q.call a := by
        intro cyc hcyc a ha
        have hb := hQbound cyc hcyc a ha
        have hmr : a ∈ rangeTo (max g._dim Q._dim) :=
          hmemrange a hb.1 (Or.inr hb.2)
        rw [mul_call g Q a ((mem_rangeTo _ _).mp hmr).1 ((mem_rangeTo _ _).mp hmr).2]
        have hv : Q.call a ∈ cyc := cycleBehaves_maps_into Q cyc (hQbeh cyc hcyc) a ha
        exact hgoff (Q.call a) (fun hin => hheaddisj cyc hcyc (Q.call a) hin hv)
      refine ⟨g.mul Q, hbc, ?_, ?_, ?_, ?_⟩
      · rw [hdimP]
        have := le_max_left g._dim Q._dim
        omega
      · intro c' hc' x hx
        rcases List.mem_cons.mp hc' with he' | hm'
        · rw [he'] at hx
          refine ⟨hcpos x hx, ?_⟩
          rw [hdimP]
          have := hgbound x hx
          have := le_max_left g._dim Q._dim
          omega
        · have hb := hQbound c' hm' x hx
          refine ⟨hb.1, ?_⟩
          rw [hdimP]
          have := le_max_right g._dim Q._dim
          omega
      · intro c' hc'
        rcases List.mem_cons.mp hc' with he' | hm'
        · rw [he']
          exact cycleBehaves_congr _ g _ hagree_head hgbeh
        · exact cycleBehaves_congr _ Q _ (hagree_rest c' hm') (hQbeh c' hm')
      · intro x hx
        by_cases hmr : x ∈ rangeTo (max g._dim Q._dim)
        · rw [mul_call g Q x ((mem_rangeTo _ _).mp hmr).1 ((mem_rangeTo _ _).mp hmr).2]
          rw [hQoff x (fun d hd => hx d (List.mem_cons_of_mem _ hd))]
          exact hgoff x (hx _ (List.mem_cons_self _ _))
        · exact mul_call_outside g Q x hmr

/-- The outer extraction loop, run on a strictly sorted working list that
    contains the pending cycles (each written starting at its minimum, heads
    strictly increasing) plus fixed points, discovers exactly the pending
    cycles in order. -/
theorem reprOuter_cycles (P : PyCycle) :
    ∀ (fuel : Nat) (tc : List Int) (pending acc : List (List Int)),
    tc.length ≤ fuel →
    List.Sorted (· < ·) tc →
    (∀ c ∈ pending, c.Nodup ∧ 2 ≤ c.length ∧ (∀ x ∈ c, c.headD 0 ≤ x)
      ∧ CycleBehaves P c ∧ ∀ x ∈ c, x ∈ tc) →
    List.Pairwise (fun c d => ∀ x ∈ c, x ∉ d) pending →
    List.Pairwise (fun c d => c.headD 0 < d.headD 0) pending →
    (∀ x ∈ tc, (∀ c ∈ pending, x ∉ c) → P.call x = x) →
    reprOuter P fuel tc acc = some (acc ++ pending) := by
  intro fuel
  induction fuel with
  | zero =>
    intro tc pending acc hlen hsort hprops hdisj hheads hfix
    cases tc with
    | cons t ts => simp at hlen
    | nil =>
      cases pending with
      | nil => simp [reprOuter]
      | cons c1 prest =>
        obtain ⟨_, hclen, _, _, hsub⟩ := hprops c1 (List.mem_cons_self _ _)
        cases c1 with
        | nil => simp at hclen
        | cons a r => exact absurd (hsub a (List.mem_cons_self _ _)) (by simp)
  | succ fuel ih =>
    intro tc pending acc hlen hsort hprops hdisj hheads hfix
    cases tc with
    | nil =>
      cases pending with
      | nil => simp [reprOuter]
      | cons c1 prest =>
        obtain ⟨_, hclen, _, _, hsub⟩ := hprops c1 (List.mem_cons_self _ _)
        cases c1 with
        | nil => simp at hclen
        | cons a r => exact absurd (hsub a (List.mem_cons_self _ _)) (by simp)
    | cons t ts =>
      have hndtc : (t :: ts).Nodup := hsort.nodup
      have htmin : ∀ y ∈ t :: ts, t ≤ y := by
        intro y hy
        rcases List.mem_cons.mp hy with he | hm
        · exact le_of_eq he.symm
        · exact le_of_lt ((List.sorted_cons.mp hsort).1 y hm)
      by_cases hex : ∃ c ∈ pending, t ∈ c
      · obtain ⟨cx, hcx, htcx⟩ := hex
        cases pending with
        | nil => simp at hcx
        | cons c1 prest =>
          obtain ⟨hc1nd, hc1len, hc1min, hc1beh, hc1sub⟩ :=
            hprops c1 (List.mem_cons_self _ _)
          obtain ⟨a, r, rfl⟩ : ∃ a r, c1 = a :: r := by
            cases c1 with
            | nil => simp at hc1len
            | cons a r => exact ⟨a, r, rfl⟩
          have hta : t ≤ a := htmin a (hc1sub a (List.mem_cons_self _ _))
          have hcx1 : cx = a :: r ∧ t = a := by
            rcases List.mem_cons.mp hcx with he | hm
            · constructor
              · exact he
              · rw [he] at htcx
                have := hc1min t htcx
                simp at this
                omega
            · exfalso
              obtain ⟨_, _, hcxmin, _, _⟩ := hprops cx (List.mem_cons_of_mem _ hm)
              have h1 : cx.headD 0 ≤ t := hcxmin t htcx
              have h2 : (a :: r).headD 0 < cx.headD 0 :=
                (List.pairwise_cons.mp hheads).1 cx hm
              rw [List.headD_cons] at h2
              omega
          obtain ⟨-, rfl⟩ := hcx1
          have hwalk := reprInner_walk P (t :: r) hc1nd hc1beh.1 hc1beh.2
            r t [] (t :: ts) ((t :: ts).length + 1) rfl
            (fun x hx => hc1sub x hx) hndtc
            (by
              have := nodup_subset_length (t :: r) (t :: ts) hc1nd hc1sub
              simp only [List.length_cons] at this ⊢
              omega)
          rw [reprOuter, hwalk]
          simp only
          rw [if_pos (by simpa using hc1len)]
          have hrec := ih ((t :: ts).filter (fun x => decide (¬x ∈ t :: r)))
            prest (acc ++ [t :: r])
            (by
              have hlt := filter_length_lt
                (fun x => decide (¬x ∈ t :: r)) (t :: ts) t
                (List.mem_cons_self _ _) (by simp)
              simp only [List.length_cons] at hlt hlen
              omega)
            (hsort.filter _)
            (by
              intro c hc
              obtain ⟨h1, h2, h3, h4, h5⟩ := hprops c (List.mem_cons_of_mem _ hc)
              refine ⟨h1, h2, h3, h4, ?_⟩
              intro x hx
              refine List.mem_filter.mpr ⟨h5 x hx, ?_⟩
              simp only [decide_eq_true_eq]
              intro hxc1
              exact (List.pairwise_cons.mp hdisj).1 c hc x hxc1 hx)
            (List.pairwise_cons.mp hdisj).2
            (List.pairwise_cons.mp hheads).2
            (by
              intro x hx hnc
              have hxtc := List.mem_of_mem_filter hx
              have hxnc1 := List.of_mem_filter hx
              simp only [decide_eq_true_eq] at hxnc1
              refine hfix x hxtc ?_
              intro c hc
              rcases List.mem_cons.mp hc with he | hm
              · rw [he]
                exact hxnc1
              · exact hnc c hm)
          rw [hrec]
          simp
      · push_neg at hex
        have hfixt : P.call t = t := hfix t (List.mem_cons_self _ _) hex
        have hwalk := reprInner_walk P [t] (List.nodup_singleton t)
          (List.chain'_singleton t)
          (by
            intro lastv headv h1 h2
            simp at h1 h2
            rw [← h1, ← h2]
            exact hfixt)
          [] t [] (t :: ts) ((t :: ts).length + 1) rfl
          (by simp) hndtc (by simp)
        rw [reprOuter, hwalk]
        simp only
        rw [if_neg (by simp)]
        have hrec := ih ((t :: ts).filter (fun x => decide (¬x ∈ [t])))
          pending acc
          (by
            have hlt := filter_length_lt
              (fun x => decide (¬x ∈ [t])) (t :: ts) t
              (List.mem_cons_self _ _) (by simp)
            simp only [List.length_cons] at hlt hlen
            omega)
          (hsort.filter _)
          (by
            intro c hc
            obtain ⟨h1, h2, h3, h4, h5⟩ := hprops c hc
            refine ⟨h1, h2, h3, h4, ?_⟩
            intro x hx
            refine List.mem_filter.mpr ⟨h5 x hx, ?_⟩
            simp only [List.mem_singleton, decide_eq_true_eq]
            intro hxt
            exact hex c hc (hxt ▸ hx))
          hdisj hheads
          (by
            intro x hx hnc
            exact hfix x (List.mem_of_mem_filter hx) hnc)
        rw [hrec]

theorem rangeTo_sorted (d : Int) : List.Sorted (· < ·) (rangeTo d) := by
  rw [rangeTo, List.Sorted, List.pairwise_map]
  refine (List.pairwise_lt_range _).imp ?_
  intro i j hij
  omega

/-- The permutation built from a canonical cycle structure extracts back to
    exactly that structure. -/
theorem buildChain_representation (cs : List (List Int)) (h : CanonicalCycles cs) :
    ∃ P, buildChain cs = some P ∧ PyCycle._create_representation P = some cs := by
  obtain ⟨hne, hprops, hdisj, hheads⟩ := h
  have hgood : GoodCycles cs :=
    ⟨fun c hc => ⟨(hprops c hc).1, (hprops c hc).2.1, (hprops c hc).2.2.1⟩, hdisj⟩
  obtain ⟨P, hP, _hPdim, hPbound, hPbeh, hPoff⟩ := buildChain_spec cs hgood hne
  refine ⟨P, hP, ?_⟩
  rw [PyCycle._create_representation]
  have hrun := reprOuter_cycles P ((rangeTo P._dim).length + 1) (rangeTo P._dim) cs []
    (by omega) (rangeTo_sorted _)
    (by
      intro c hc
      refine ⟨(hprops c hc).1, (hprops c hc).2.1, (hprops c hc).2.2.2, hPbeh c hc, ?_⟩
      intro x hx
      exact (mem_rangeTo _ _).mpr (hPbound c hc x hx))
    hdisj hheads
    (fun x _ hnc => hPoff x hnc)
  rw [hrun, List.nil_append]

/-! ### C4: the rendered text tokenizes back to the same cycles -/
theorem natReprAux_spec : ∀ (fuel n : Nat), n < fuel →
    natReprAux fuel n ≠ []
    ∧ (∀ ch ∈ natReprAux fuel n, isDigitCh ch = true)
    ∧ (natReprAux fuel n).foldl (fun a c => a * 10 + digitVal c) 0 = n := by
  intro fuel
  induction fuel with
  | zero => intro n h; omega
  | succ fuel ih =>
    intro n hn
    by_cases h10 : n < 10
    · rw [natReprAux, if_pos h10]
      refine ⟨by simp, ?_, ?_⟩
      · intro ch hch
        rw [List.mem_singleton] at hch
        rw [hch]
        interval_cases n <;> decide
      · interval_cases n <;> decide
    · rw [natReprAux, if_neg h10]
      have hdiv : n / 10 < fuel := by
        have := Nat.div_lt_self (show 0 < n by omega) (show 1 < 10 by omega)
        omega
      obtain ⟨hne, hdig, hval⟩ := ih (n / 10) hdiv
      have hr10 : n % 10 < 10 := Nat.mod_lt _ (by omega)
      have hrdig : ∀ r : Nat, r < 10 → isDigitCh (Char.ofNat (48 + r)) = true
          ∧ digitVal (Char.ofNat (48 + r)) = r := by
        intro r hr
        interval_cases r <;> exact ⟨by decide, by decide⟩
      refine ⟨by simp, ?_, ?_⟩
      · intro ch hch
        rcases List.mem_append.mp hch with h | h
        · exact hdig ch h
        · rw [List.mem_singleton] at h
          rw [h]
          exact (hrdig (n % 10) hr10).1
      · rw [List.foldl_append, hval, List.foldl_cons, List.foldl_nil,
          (hrdig (n % 10) hr10).2]
        omega

theorem natRepr_spec (n : Nat) :
    natRepr n ≠ [] ∧ (∀ ch ∈ natRepr n, isDigitCh ch = true)
    ∧ (natRepr n).foldl (fun a c => a * 10 + digitVal c) 0 = n :=
  natReprAux_spec (n + 1) n (by omega)

theorem isDigitCh_ne (ch : Char) (h : isDigitCh ch = true) :
    ch ≠ ')' ∧ ch ≠ '(' ∧ ch ≠ ',' ∧ ch ≠ '-' ∧ ch ≠ '+' := by
  refine ⟨?_, ?_, ?_, ?_, ?_⟩ <;> (intro he; rw [he] at h; exact absurd h (by decide))

theorem digit_not_space (ch : Char) (h : isDigitCh ch = true) : isPySpace ch = false := by
  cases hsp : isPySpace ch
  · rfl
  · exfalso
    simp only [isPySpace, Bool.or_eq_true, decide_eq_true_eq] at hsp
    rcases hsp with ((((he | he) | he) | he) | he) | he <;> rw [he] at h <;>
      exact absurd h (by decide)

theorem dropWhile_false (p : Char → Bool) (l : List Char)
    (h : ∀ ch ∈ l, p ch = false) : l.dropWhile p = l := by
  cases l with
  | nil => rfl
  | cons c rest =>
    rw [List.dropWhile_cons, h c (List.mem_cons_self _ _)]
    simp

theorem pyStrip_eq_self (t : List Char) (h : ∀ ch ∈ t, isPySpace ch = false) :
    pyStrip t = t := by
  rw [pyStrip, dropWhile_false _ t h,
    dropWhile_false _ t.reverse (fun ch hch => h ch (by simpa using hch)),
    List.reverse_reverse]

theorem pyStrip_space_cons (t : List Char) (h : ∀ ch ∈ t, isPySpace ch = false) :
    pyStrip (' ' :: t) = t := by
  rw [pyStrip]
  have h1 : (' ' :: t).dropWhile isPySpace = t.dropWhile isPySpace := by
    rw [List.dropWhile_cons]
    simp [isPySpace]
  rw [h1, dropWhile_false _ t h,
    dropWhile_false _ t.reverse (fun ch hch => h ch (by simpa using hch)),
    List.reverse_reverse]

theorem intRepr_pos (y : Int) (hy : 1 ≤ y) :
    intRepr y = natRepr y.toNat
    ∧ intRepr y ≠ [] ∧ (∀ ch ∈ intRepr y, isDigitCh ch = true) := by
  rw [intRepr, if_neg (by omega)]
  exact ⟨rfl, (natRepr_spec _).1, (natRepr_spec _).2.1⟩

theorem pyInt_intRepr (x : Int) (hx : 1 ≤ x) : pyInt (intRepr x) = some x := by
  obtain ⟨hrw, hne, hdig⟩ := intRepr_pos x hx
  rw [hrw] at hne hdig ⊢
  have hstrip : pyStrip (natRepr x.toNat) = natRepr x.toNat :=
    pyStrip_eq_self _ (fun ch hch => digit_not_space ch (hdig ch hch))
  obtain ⟨c, ds, hcds⟩ : ∃ c ds, natRepr x.toNat = c :: ds := by
    cases h : natRepr x.toNat with
    | nil => exact absurd h hne
    | cons c ds => exact ⟨c, ds, rfl⟩
  have hcd : isDigitCh c = true := hdig c (by rw [hcds]; exact List.mem_cons_self _ _)
  show (match pyStrip (natRepr x.toNat) with
    | [] => none
    | c :: ds =>
      if c = '-' then (parseDigits ds).map (fun n => -(n : Int))
      else if c = '+' then (parseDigits ds).map (fun n => (n : Int))
      else (parseDigits (c :: ds)).map (fun n => (n : Int))) = some x
  rw [hstrip, hcds]
  simp only
  rw [if_neg (isDigitCh_ne c hcd).2.2.2.1, if_neg (isDigitCh_ne c hcd).2.2.2.2]
  rw [parseDigits, if_neg (by simp)]
  rw [if_pos (by
    rw [List.all_eq_true]
    intro ch hch
    exact hdig ch (by rw [hcds]; exact hch))]
  rw [← hcds, (natRepr_spec x.toNat).2.2]
  simp
  omega

theorem consHead_consHeadList (c : Char) (l : List Char) (ls : List (List Char)) :
    consHead c (consHeadList l ls) = consHeadList (c :: l) ls := by
  cases ls <;> simp [consHead, consHeadList]

theorem splitChar_ne_nil (sep : Char) (s : List Char) : splitChar sep s ≠ [] := by
  cases s with
  | nil => simp [splitChar]
  | cons c rest =>
    rw [splitChar]
    by_cases h : c = sep
    · simp [h]
    · rw [if_neg h]
      cases splitChar sep rest <;> simp [consHead]

theorem splitChar_append (sep : Char) (l : List Char) :
    ∀ (s : List Char), (∀ ch ∈ l, ch ≠ sep) →
    splitChar sep (l ++ s) = consHeadList l (splitChar sep s) := by
  induction l with
  | nil =>
    intro s _
    rw [List.nil_append]
    cases h : splitChar sep s with
    | nil => exact absurd h (splitChar_ne_nil sep s)
    | cons a t => simp [consHeadList]
  | cons c l2 ih =>
    intro s hl
    rw [List.cons_append, splitChar, if_neg (hl c (List.mem_cons_self _ _)),
      ih s (fun ch hch => hl ch (List.mem_cons_of_mem _ hch))]
    exact consHead_consHeadList c l2 _

theorem splitParenPair_ne_nil : ∀ (s : List Char), splitParenPair s ≠ [] := by
  intro s
  match s with
  | [] => simp [splitParenPair]
  | [c] => simp [splitParenPair]
  | c1 :: c2 :: rest =>
    rw [splitParenPair]
    by_cases h : c1 = ')' ∧ c2 = '('
    · simp [h]
    · rw [if_neg h]
      cases splitParenPair (c2 :: rest) <;> simp [consHead]

theorem splitParenPair_append (l : List Char) :
    ∀ (s : List Char), (∀ ch ∈ l, ch ≠ ')') →
    splitParenPair (l ++ s) = consHeadList l (splitParenPair s) := by
  induction l with
  | nil =>
    intro s _
    rw [List.nil_append]
    cases h : splitParenPair s with
    | nil => exact absurd h (splitParenPair_ne_nil s)
    | cons a t => simp [consHeadList]
  | cons c l2 ih =>
    intro s hl
    rw [List.cons_append]
    have ihs := ih s (fun ch hch => hl ch (List.mem_cons_of_mem _ hch))
    cases hrest : l2 ++ s with
    | nil =>
      obtain ⟨hl2, hs⟩ := List.append_eq_nil.mp hrest
      rw [hl2, hs]
      simp [splitParenPair, consHeadList]
    | cons c2 rest2 =>
      rw [hrest] at ihs
      rw [splitParenPair, if_neg (fun hc => hl c (List.mem_cons_self _ _) hc.1), ihs]
      exact consHead_consHeadList c l2 _

theorem joinSep_cons2 (sep p q : List Char) (rest : List (List Char)) :
    joinSep sep (p :: q :: rest) = p ++ (sep ++ joinSep sep (q :: rest)) := by
  rw [joinSep, joinSep, List.flatMap_cons]
  simp [List.append_assoc]

theorem mem_joinSep (sep : List Char) :
    ∀ (parts : List (List Char)) (ch : Char), ch ∈ joinSep sep parts →
    ch ∈ sep ∨ ∃ p ∈ parts, ch ∈ p := by
  intro parts
  induction parts with
  | nil => simp [joinSep]
  | cons p rest ih =>
    intro ch hch
    cases rest with
    | nil =>
      right
      refine ⟨p, List.mem_cons_self _ _, ?_⟩
      simpa [joinSep] using hch
    | cons q rest2 =>
      rw [joinSep_cons2] at hch
      rcases List.mem_append.mp hch with h | h
      · exact Or.inr ⟨p, List.mem_cons_self _ _, h⟩
      · rcases List.mem_append.mp h with h2 | h2
        · exact Or.inl h2
        · rcases ih ch h2 with h3 | ⟨p2, hp2, hcp2⟩
          · exact Or.inl h3
          · exact Or.inr ⟨p2, List.mem_cons_of_mem _ hp2, hcp2⟩

theorem splitChar_joinSep :
    ∀ (rest : List (List Char)) (t : List Char),
    (∀ ch ∈ t, ch ≠ ',') → (∀ q ∈ rest, ∀ ch ∈ q, ch ≠ ',') →
    splitChar ',' (joinSep [',', ' '] (t :: rest))
      = t :: rest.map (fun q => ' ' :: q) := by
  intro rest
  induction rest with
  | nil =>
    intro t ht _
    have hj : joinSep [',', ' '] [t] = t ++ [] := by
      rw [joinSep]
      simp
    rw [hj, splitChar_append ',' t [] ht]
    simp [splitChar, consHeadList]
  | cons q rest2 ih =>
    intro t ht hrest
    rw [joinSep_cons2, splitChar_append ',' t _ ht]
    have hq : splitChar ',' ([',', ' '] ++ joinSep [',', ' '] (q :: rest2))
        = [] :: consHead ' ' (splitChar ',' (joinSep [',', ' '] (q :: rest2))) := by
      rw [List.cons_append, splitChar, if_pos rfl, List.cons_append, List.nil_append,
        splitChar, if_neg (by decide)]
    rw [hq, ih q (hrest q (List.mem_cons_self _ _))
      (fun q2 hq2 => hrest q2 (List.mem_cons_of_mem _ hq2))]
    simp [consHead, consHeadList]

theorem optMapList_map_eq_some {α γ : Type} (F : γ → Option α) (f : α → γ) :
    ∀ (l : List α), (∀ a ∈ l, F (f a) = some a) → optMapList F (l.map f) = some l := by
  intro l
  induction l with
  | nil => intro _; rfl
  | cons a rest ih =>
    intro h
    rw [List.map_cons, optMapList, h a (List.mem_cons_self _ _),
      ih (fun b hb => h b (List.mem_cons_of_mem _ hb))]

theorem tokensOf_inner (c : List Int) (hne : c ≠ []) (hpos : ∀ x ∈ c, 1 ≤ x) :
    tokensOf (joinSep (", ".data) (c.map intRepr)) = c.map intRepr := by
  obtain ⟨x, xs, rfl⟩ : ∃ x xs, c = x :: xs := by
    cases c with
    | nil => exact absurd rfl hne
    | cons x xs => exact ⟨x, xs, rfl⟩
  have hsep : ", ".data = [',', ' '] := rfl
  have hdigits : ∀ y ∈ x :: xs, ∀ ch ∈ intRepr y, isDigitCh ch = true := by
    intro y hy
    exact (intRepr_pos y (hpos y hy)).2.2
  rw [tokensOf, hsep, List.map_cons, splitChar_joinSep (xs.map intRepr) (intRepr x)
    (fun ch hch => (isDigitCh_ne ch (hdigits x (List.mem_cons_self _ _) ch hch)).2.2.1)
    (by
      intro q hq ch hch
      rcases List.mem_map.mp hq with ⟨y, hy, rfl⟩
      exact (isDigitCh_ne ch
        (hdigits y (List.mem_cons_of_mem _ hy) ch hch)).2.2.1)]
  rw [List.map_cons]
  rw [pyStrip_eq_self (intRepr x)
    (fun ch hch => digit_not_space ch (hdigits x (List.mem_cons_self _ _) ch hch))]
  rw [List.map_map]
  have hmap2 : (xs.map intRepr).map (pyStrip ∘ (fun q => ' ' :: q)) = xs.map intRepr := by
    rw [List.map_congr_left (g := id) ?_, List.map_id]
    intro q hq
    rcases List.mem_map.mp hq with ⟨y, hy, rfl⟩
    show pyStrip (' ' :: intRepr y) = intRepr y
    exact pyStrip_space_cons _
      (fun ch hch => digit_not_space ch (hdigits y (List.mem_cons_of_mem _ hy) ch hch))
  rw [hmap2]
  refine List.filter_eq_self.mpr ?_
  intro q hq
  simp only [decide_eq_true_eq]
  rcases List.mem_cons.mp hq with he | hm
  · rw [he]
    exact (intRepr_pos x (hpos x (List.mem_cons_self _ _))).2.1
  · rcases List.mem_map.mp hm with ⟨y, hy, rfl⟩
    exact (intRepr_pos y (hpos y (List.mem_cons_of_mem _ hy))).2.1

theorem splitParenPair_joinSep :
    ∀ (rest : List (List Char)) (p : List Char),
    (∀ ch ∈ p, ch ≠ ')') → (∀ q ∈ rest, ∀ ch ∈ q, ch ≠ ')') →
    splitParenPair (joinSep (")(".data) (p :: rest)) = p :: rest := by
  intro rest
  induction rest with
  | nil =>
    intro p hp _
    have hj : joinSep (")(".data) [p] = p ++ [] := by
      rw [joinSep]
      simp
    rw [hj, splitParenPair_append p [] hp]
    simp [splitParenPair, consHeadList]
  | cons q rest2 ih =>
    intro p hp hrest
    rw [joinSep_cons2, splitParenPair_append p _ hp]
    have hsep : ")(".data = [')', '('] := rfl
    have hq : splitParenPair (")(".data ++ joinSep (")(".data) (q :: rest2))
        = [] :: splitParenPair (joinSep (")(".data) (q :: rest2)) := by
      rw [hsep, List.cons_append, List.cons_append, List.nil_append, splitParenPair,
        if_pos ⟨rfl, rfl⟩]
    rw [hq, ih q (hrest q (List.mem_cons_self _ _))
      (fun q2 hq2 => hrest q2 (List.mem_cons_of_mem _ hq2))]
    simp [consHeadList]

theorem wrap_eq_parens_iff (body : List Char) :
    ('(' :: (body ++ [')'])) = "()".data ↔ body = [] := by
  constructor
  · intro h
    have h0 : "()".data = ['(', ')'] := rfl
    rw [h0] at h
    injection h with _ h2
    cases body with
    | nil => rfl
    | cons b bs =>
      rw [List.cons_append] at h2
      injection h2 with _ h4
      exact absurd h4 (by simp)
  · intro h
    rw [h]
    rfl

theorem inner_ne_paren (c : List Int) (hpos : ∀ x ∈ c, 1 ≤ x) :
    ∀ ch ∈ joinSep (", ".data) (c.map intRepr), ch ≠ ')' ∧ ch ≠ '(' := by
  intro ch hch
  rcases mem_joinSep _ _ ch hch with h | ⟨p, hp, hcp⟩
  · have h2 : ch = ',' ∨ ch = ' ' := by simpa using h
    rcases h2 with he | he <;> rw [he] <;> exact ⟨by decide, by decide⟩
  · rcases List.mem_map.mp hp with ⟨y, hy, rfl⟩
    have hd := (intRepr_pos y (hpos y hy)).2.2 ch hcp
    exact ⟨(isDigitCh_ne ch hd).1, (isDigitCh_ne ch hd).2.1⟩

theorem inner_ne_nil (c : List Int) (hne : c ≠ []) (hpos : ∀ x ∈ c, 1 ≤ x) :
    joinSep (", ".data) (c.map intRepr) ≠ [] := by
  obtain ⟨x, xs, rfl⟩ : ∃ x xs, c = x :: xs := by
    cases c with
    | nil => exact absurd rfl hne
    | cons x xs => exact ⟨x, xs, rfl⟩
  rw [List.map_cons, joinSep]
  intro h
  exact (intRepr_pos x (hpos x (List.mem_cons_self _ _))).2.1 (List.append_eq_nil.mp h).1

theorem prettify_shape (cs : List (List Int)) (hne : cs ≠ [])
    (hprops : ∀ c ∈ cs, c ≠ [] ∧ ∀ x ∈ c, 1 ≤ x) :
    PyCycle._prettify cs
      = '(' :: (joinSep (")(".data)
          (cs.map (fun cyc => joinSep (", ".data) (cyc.map intRepr))) ++ [')']) := by
  have hbody : joinSep (")(".data)
      (cs.map (fun cyc => joinSep (", ".data) (cyc.map intRepr))) ≠ [] := by
    obtain ⟨c0, rest, rfl⟩ : ∃ c0 rest, cs = c0 :: rest := by
      cases cs with
      | nil => exact absurd rfl hne
      | cons c0 rest => exact ⟨c0, rest, rfl⟩
    cases rest with
    | nil =>
      rw [List.map_cons, List.map_nil, joinSep]
      intro h
      exact inner_ne_nil c0 (hprops c0 (List.mem_cons_self _ _)).1
        (hprops c0 (List.mem_cons_self _ _)).2 (List.append_eq_nil.mp h).1
    | cons c1 rest2 =>
      rw [List.map_cons, List.map_cons, joinSep_cons2]
      intro h
      have := (List.append_eq_nil.mp (List.append_eq_nil.mp h).2).1
      simp at this
  rw [PyCycle._prettify]
  simp only
  split_ifs with hcond
  · exact absurd ((wrap_eq_parens_iff _).mp hcond) hbody
  · rfl

theorem tokenize_prettify (cs : List (List Int)) (hne : cs ≠ [])
    (hprops : ∀ c ∈ cs, c ≠ [] ∧ ∀ x ∈ c, 1 ≤ x) :
    tokenizeCycles (PyCycle._prettify cs) = some cs := by
  rw [prettify_shape cs hne hprops, tokenizeCycles]
  have hdrop : ((('(' :: (joinSep (")(".data)
      (cs.map (fun cyc => joinSep (", ".data) (cyc.map intRepr))) ++ [')'])).drop 1).dropLast)
      = joinSep (")(".data) (cs.map (fun cyc => joinSep (", ".data) (cyc.map intRepr))) := by
    rw [List.drop_one, List.tail_cons, List.dropLast_concat]
  rw [hdrop]
  obtain ⟨c0, rest, rfl⟩ : ∃ c0 rest, cs = c0 :: rest := by
    cases cs with
    | nil => exact absurd rfl hne
    | cons c0 rest => exact ⟨c0, rest, rfl⟩
  rw [List.map_cons,
    splitParenPair_joinSep (rest.map (fun cyc => joinSep (", ".data) (cyc.map intRepr)))
      (joinSep (", ".data) (c0.map intRepr))
      (fun ch hch => (inner_ne_paren c0 (hprops c0 (List.mem_cons_self _ _)).2 ch hch).1)
      (by
        intro q hq ch hch
        rcases List.mem_map.mp hq with ⟨d, hd, rfl⟩
        exact (inner_ne_paren d (hprops d (List.mem_cons_of_mem _ hd)).2 ch hch).1)]
  have htok : ∀ c ∈ c0 :: rest,
      tokensOf (joinSep (", ".data) (c.map intRepr)) = c.map intRepr :=
    fun c hc => tokensOf_inner c (hprops c hc).1 (hprops c hc).2
  have hfilter : ((joinSep (", ".data) (c0.map intRepr)) ::
        rest.map (fun cyc => joinSep (", ".data) (cyc.map intRepr))).filter
        (fun p => decide (tokensOf p ≠ []))
      = (joinSep (", ".data) (c0.map intRepr)) ::
        rest.map (fun cyc => joinSep (", ".data) (cyc.map intRepr)) := by
    refine List.filter_eq_self.mpr ?_
    intro p hp
    simp only [decide_eq_true_eq]
    have hpc : ∃ c ∈ c0 :: rest, p = joinSep (", ".data) (c.map intRepr) := by
      rcases List.mem_cons.mp hp with he | hm
      · exact ⟨c0, List.mem_cons_self _ _, he⟩
      · rcases List.mem_map.mp hm with ⟨d, hd, he⟩
        exact ⟨d, List.mem_cons_of_mem _ hd, he.symm⟩
    obtain ⟨c, hc, rfl⟩ := hpc
    rw [htok c hc]
    intro h
    exact (hprops c hc).1 (List.map_eq_nil_iff.mp h)
  rw [hfilter]
  have hmapform : (joinSep (", ".data) (c0.map intRepr)) ::
      rest.map (fun cyc => joinSep (", ".data) (cyc.map intRepr))
      = (c0 :: rest).map (fun cyc => joinSep (", ".data) (cyc.map intRepr)) := rfl
  rw [hmapform]
  refine optMapList_map_eq_some _ _ (c0 :: rest) ?_
  intro c hc
  rw [htok c hc]
  exact optMapList_map_eq_some pyInt intRepr c
    (fun y hy => pyInt_intRepr y ((hprops c hc).2 y hy))

/-- C4 counterexample: `"(2, 1)"` is a disjoint-cycle string with cycles in
    (trivially) ascending first-element order and no singleton cycles, yet
    `toString(parse("(2, 1)"))` is `"(1, 2)"`, not `"(2, 1)"` — extraction
    restarts the cycle at its smallest element. -/
theorem roundtrip_fails_for_nonmin_start :
    (CycleParse ("(2, 1)".data)).bind PyCycle.reprStr = some ("(1, 2)".data)
    ∧ "(1, 2)".data ≠ "(2, 1)".data := by
  constructor
  · decide
  · decide

/-- C4 amended: the round trip `toString(parse(s)) = s` holds for every
    canonical disjoint-cycle string, where canonical additionally requires
    each cycle to be written starting at its minimal element (with cycles
    disjoint, non-singleton, positive, and first elements strictly
    ascending).  `_prettify cs` ranges over exactly those strings. -/
theorem roundtrip_canonical (cs : List (List Int)) (h : CanonicalCycles cs) :
    (CycleParse (PyCycle._prettify cs)).bind PyCycle.reprStr
      = some (PyCycle._prettify cs) := by
  obtain ⟨hne, hprops, hdisj, hheads⟩ := h
  have htok : tokenizeCycles (PyCycle._prettify cs) = some cs := by
    refine tokenize_prettify cs hne ?_
    intro c hc
    refine ⟨?_, (hprops c hc).2.2.1⟩
    intro he
    have := (hprops c hc).2.1
    rw [he] at this
    simp at this
  obtain ⟨P, hP, hrep⟩ := buildChain_representation cs ⟨hne, hprops, hdisj, hheads⟩
  rw [parse_eq_buildChain _ cs htok, hP, Option.some_bind, PyCycle.reprStr, hrep]
  rfl

theorem roundtrip_canonical_witness :
    (CycleParse (PyCycle._prettify [[1, 2], [3, 4, 5]])).bind PyCycle.reprStr
      = some (PyCycle._prettify [[1, 2], [3, 4, 5]]) :=
  roundtrip_canonical [[1, 2], [3, 4, 5]] (by decide)
